import Mathlib

/-!
# Verification of the RoboSpec validation / normalization / repair engine

A shallow embedding, in Lean 4, of the parts of the `robospec` repository
that the specification's testable properties talk about:

* `robospec/pipeline/validator.py` — `SUPPLEMENTAL_WHITELIST`,
  `COMMON_CORRECTIONS`, `ValidationResult`, `load_api_whitelist`,
  `auto_correct_code`, `check_api_symbols`, `validate_config`;
* `robospec/pipeline/generator.py` — `CATEGORY_ROBOT_CONFIG`,
  `post_process_env_cfg`;
* `robospec/cli.py` — `MAX_REPAIR_ATTEMPTS` and the repair loop of
  `_run_pipeline`.

Modelling conventions, used throughout:

* Python strings are modelled as `List Char` (wrapped into `String` at the
  API boundary).  The Python regular expressions that appear in the source
  use only literal text, the classes `\s`, `\S`, `\w`, `[^)]`, `[^"]`,
  `[^\n(]`, `[A-Z]`, the word-boundary `\b`, greedy `+`/`*`/`?`, and
  anchors; each concrete pattern is embedded as an explicit scanner on
  `List Char` with the same (leftmost, greedy-with-backtracking,
  non-overlapping) match semantics.  `\w` and `\s` are Unicode-aware in
  Python; the embedding is exact on ASCII input (non-ASCII characters are
  uniformly treated as word characters and as non-space).
* `ast.parse` is CPython's parser and is not part of the repository; a
  parsed artifact is therefore modelled as a pair of the raw text and the
  parse outcome (`PySource`), and Python AST nodes are modelled by the
  rose tree `PyNode` covering exactly the node kinds the validator
  inspects.  `ast.walk`'s breadth-first traversal is embedded as `astWalk`.
* Python `set` objects are modelled as `List` with membership semantics;
  numeric constants are modelled exactly (`Int` / `ℚ` — every float
  literal is a dyadic rational, and the only operations performed on
  weights are `abs` and comparison with 10.0, both exact on `ℚ`).
* A Python function that can raise is modelled in `Except PyExc`;
  `difflib.get_close_matches(name, wl, n=1, cutoff=0.6)` (standard
  library, external to the repository) is modelled as an arbitrary
  function parameter `cm : String → List String → List String` of which
  only the first element is ever used, exactly as in the source.
-/

namespace RoboSpec


/-! ## Characters: Python `\w`, `\s`, `[A-Z]` (exact on ASCII) -/

/-- Python regex `\w` (word character): letter, digit or underscore.
Non-ASCII characters are treated as word characters (Python's `\w` is
Unicode-aware; this embedding is exact on ASCII text). -/
def isWordChar (c : Char) : Bool :=
  c.isAlphanum || c == '_' || decide (c.val ≥ 128)

/-- Python regex `\s` (whitespace): the six ASCII whitespace characters.
(Python also accepts some rare Unicode spaces; exact on ASCII text.) -/
def isSpaceChar (c : Char) : Bool :=
  c == ' ' || c == '\t' || c == '\n' || c == '\x0d' || c == '\x0c' || c == '\x0b'

/-- Python regex class `[A-Z]`. -/
def isUpperAZ (c : Char) : Bool := 'A' ≤ c && c ≤ 'Z'

/-! ## `COMMON_CORRECTIONS` (validator.py lines 39–54)

The Python dict maps hallucinated names to replacements (`None` meaning
"skip"); dict iteration order is insertion order, kept here as a list. -/

def COMMON_CORRECTIONS : List (String × Option String) :=
  [ ("joint_pos_l2", some "joint_pos_target_l2"),
    ("joint_pos_l1", some "joint_deviation_l1"),
    ("joint_vel_l2_asset", some "joint_vel_l2"),
    ("action_rate_l2_norm", some "action_rate_l2"),
    ("track_lin_vel_xy", some "track_lin_vel_xy_exp"),
    ("track_ang_vel_z", some "track_ang_vel_z_exp"),
    ("base_lin_vel_z_l2", some "lin_vel_z_l2"),
    ("base_ang_vel_xy_l2", some "ang_vel_xy_l2"),
    ("position_error_tanh", some "position_command_error_tanh"),
    ("position_error", some "position_command_error"),
    ("joint_pos_target_l1", some "joint_pos_target_l2"),
    ("action_rate_l1", some "action_rate_l2"),
    ("feet_air_time_biped_reward", some "feet_air_time") ]

/-! ## The auto-corrector's regex `mdp\.WRONG\b` (validator.py lines 109–118)

`re.escape(wrong)` is the identity on the table's names (they contain only
word characters).  The pattern is the literal `mdp.` ++ wrong, subject to a
word boundary after the final character of `wrong`; since every table name
ends in a word character, the `\b` holds exactly when the next character is
a non-word character or the string ends. -/

/-- The literal characters `mdp.` that prefix every correction pattern. -/
def mdpDot : List Char := ['m', 'd', 'p', '.']

/-- The full pattern text `mdp.` ++ w of the regex `mdp\.w\b`. -/
def pat (w : List Char) : List Char := mdpDot ++ w

/-- The `\b` condition after a word character: next char absent or non-word. -/
def bnd (s : List Char) : Bool :=
  match s with
  | [] => true
  | c :: _ => !isWordChar c

/-- Does `mdp\.w\b` match at the start of `s`? -/
def matchAt (w s : List Char) : Bool :=
  (pat w).isPrefixOf s && bnd (s.drop (pat w).length)

/-- Does `mdp\.w\b` match anywhere in `s` (Python `pattern.search`)? -/
def hasMatch (w : List Char) : List Char → Bool
  | [] => matchAt w []
  | c :: t => matchAt w (c :: t) || hasMatch w t

/-- `pattern.sub("mdp." ++ r, s)` for the pattern `mdp\.w\b`: replace every
leftmost non-overlapping match, continuing after the replaced span. -/
def subWB (w r : List Char) (s : List Char) : List Char :=
  if matchAt w s then
    pat r ++ subWB w r (s.drop (pat w).length)
  else
    match s with
    | [] => []
    | c :: t => c :: subWB w r t
termination_by s.length
decreasing_by
  · have hp : (pat w).isPrefixOf s := by
      unfold matchAt at *; exact (Bool.and_eq_true _ _ |>.mp (by assumption)).1
    have hlen : (pat w).length ≤ s.length :=
      (List.isPrefixOf_iff_prefix.mp hp).length_le
    have hpos : 0 < (pat w).length := by simp [pat, mdpDot]
    simp only [List.length_drop]
    omega
  · simp

/-- One step of the `for wrong, right in COMMON_CORRECTIONS.items()` loop
(validator.py lines 109–116). -/
def applyCorrection (acc : List Char × List String) (entry : String × Option String) :
    List Char × List String :=
  match entry with
  | (_, none) => acc
  | (wrong, some right) =>
    if hasMatch wrong.data acc.1 then
      (subWB wrong.data right.data acc.1,
       acc.2 ++ [s!"mdp.{wrong} -> mdp.{right}"])
    else acc

/-- `auto_correct_code` (validator.py lines 97–118). -/
def auto_correct_code (code : String) : String × List String :=
  let out := COMMON_CORRECTIONS.foldl applyCorrection (code.data, [])
  (String.mk out.1, out.2)

/-! ## `ValidationResult` (validator.py lines 57–62) -/

/-- The validation verdict dataclass. -/
structure ValidationResult where
  is_valid : Bool := true
  errors : List String := []
  warnings : List String := []
  corrections : List String := []
  deriving Repr, DecidableEq

/-! ## `SUPPLEMENTAL_WHITELIST` (validator.py lines 16–35) -/

def SUPPLEMENTAL_WHITELIST : List String :=
  [ "position_command_error",
    "position_command_error_tanh",
    "orientation_command_error",
    "joint_pos_target_l2",
    "feet_air_time",
    "UniformVelocityCommandCfg",
    "UniformPoseCommandCfg",
    "NullCommandCfg",
    "randomize_rigid_body_material",
    "randomize_rigid_body_mass",
    "modify_reward_weight",
    "terrain_levels_vel" ]

/-! ## `load_api_whitelist` (validator.py lines 65–94)

The reference directory `knowledge/api_reference/` is filesystem state, not
code: it is modelled as `Option (List String)` — `none` when the directory
does not exist, otherwise the text contents of its `*.md` files.  The two
`re.finditer` header scans (`^###\s+mdp\.(\w+)` and `^###\s+([A-Z]\w+)`,
both `re.MULTILINE`) are embedded as `scanHeaders`: a match can start only
at a line start (`^`), requires `###` followed by at least one whitespace
character (which, as in Python, may include newlines), and captures a
maximal run of word characters.  The Python `set` is modelled as a list
with membership semantics. -/

/-- The captures of both header patterns whose match starts at the head of
`cs` (which is at a line start). -/
def headerAt (cs : List Char) : List String :=
  if ("###".data).isPrefixOf cs then
    let rest := cs.drop 3
    let ws := rest.takeWhile isSpaceChar
    if ws.isEmpty then []
    else
      let rem := rest.drop ws.length
      let p1 :=
        if ("mdp.".data).isPrefixOf rem then
          let run := (rem.drop 4).takeWhile isWordChar
          if run.isEmpty then [] else [String.mk run]
        else []
      let p2 :=
        match rem with
        | c :: t =>
          if isUpperAZ c then
            let run := t.takeWhile isWordChar
            if run.isEmpty then [] else [String.mk (c :: run)]
          else []
        | [] => []
      p1 ++ p2
  else []

/-- Scan a file's text for both header patterns, anchored at line starts. -/
def scanHeadersGo : List Char → Bool → List String
  | [], _ => []
  | c :: t, atStart =>
    (if atStart then headerAt (c :: t) else []) ++ scanHeadersGo t (c == '\n')

def scanHeaders (text : List Char) : List String := scanHeadersGo text true

/-- `load_api_whitelist` over a directory state: `none` = directory absent
(the early `return symbols` with the empty set), `some files` = the texts
of the `*.md` files.  The `lru_cache` only memoizes this pure computation. -/
def load_api_whitelist (apiDir : Option (List String)) : List String :=
  match apiDir with
  | none => []
  | some files =>
    files.foldl (fun acc t => acc ++ scanHeaders t.data) [] ++ SUPPLEMENTAL_WHITELIST

/-! ### C2: the supplemental whitelist and the registry -/

/-! ## Python AST (the fragment the validator inspects)

`ast.parse` is CPython's parser, external to the repository; a parsed
artifact is a `PySource`: the raw text paired with the parse outcome.
AST nodes are a rose tree `PyNode` of a kind plus the child nodes in
field order (as traversed by `ast.iter_child_nodes`); node kinds the
validator never inspects are `other`.  Two simplifications that cannot
affect any inspected guard: operator nodes (`ast.USub` etc.) are folded
into the `unaryOp` kind as a Boolean instead of appearing as child
nodes, and expression-context child nodes (`ast.Load` etc.) are elided. -/

/-- A Python constant (`ast.Constant.value`).  `float` values are dyadic
rationals, represented exactly in `ℚ`; the only operations applied to
them (`abs`, comparison with `10.0`) are exact.  Complex and bytes
constants, which no check treats specially, are not modelled. -/
inductive PyConst where
  | int (i : Int)
  | float (q : ℚ)
  | bool (b : Bool)
  | str (s : String)
  | pynone
  deriving Repr, DecidableEq

/-- The kind of a Python AST node, covering every `isinstance` test in
validator.py; all other node types are `other`. -/
inductive PyKind where
  | classDef (name : String)
  | functionDef (name : String)
  | importStmt (aliasNames : List String)
  | importFrom (module : Option String)
  | attribute (attr : String)
  | nameExpr (id : String)
  | constant (c : PyConst)
  | unaryOp (isUSub : Bool)
  | keywordArg (arg : Option String)
  | other
  deriving Repr, DecidableEq

/-- A Python AST node: kind plus children in `ast.iter_child_nodes` order. -/
inductive PyNode where
  | mk (kind : PyKind) (children : List PyNode)
  deriving Repr

def PyNode.kind : PyNode → PyKind
  | .mk k _ => k

def PyNode.children : PyNode → List PyNode
  | .mk _ cs => cs

/-- Number of nodes of a tree (used as exact fuel for the BFS queue). -/
def PyNode.size : PyNode → Nat
  | .mk _ cs => 1 + sizeList cs
where sizeList : List PyNode → Nat
  | [] => 0
  | c :: cs => c.size + sizeList cs

/-- The breadth-first queue step of `ast.walk`: pop a node, push its
children at the back.  `PyNode.size` is exactly the number of pops. -/
def bfsAux : Nat → List PyNode → List PyNode
  | 0, _ => []
  | _ + 1, [] => []
  | fuel + 1, n :: rest => n :: bfsAux fuel (rest ++ n.children)

/-- `ast.walk(tree)`: breadth-first enumeration of all nodes. -/
def astWalk (t : PyNode) : List PyNode := bfsAux t.size [t]

/-- A parse attempt's failure: `SyntaxError` line number and message. -/
structure SyntaxErr where
  lineno : Nat
  msg : String
  deriving Repr, DecidableEq

/-- A Python source artifact: its raw text together with the outcome of
`ast.parse` on that text (the parser itself is CPython's, so the pairing
is taken as given; every theorem quantifies over all such pairs). -/
structure PySource where
  text : String
  parsed : Except SyntaxErr PyNode

/-- An exception escaping a validator call (`abs()` on a non-numeric
constant raises `TypeError`). -/
inductive PyExc where
  | typeError
  deriving Repr, DecidableEq

/-! ## String helpers: Python `in` (substring) -/

/-- Does `p` occur as a contiguous sublist of the second argument? -/
def infixOf (p : List Char) : List Char → Bool
  | [] => p.isPrefixOf []
  | c :: t => p.isPrefixOf (c :: t) || infixOf p t

/-- Python `sub in s` on strings. -/
def containsSub (sub s : String) : Bool := infixOf sub.data s.data

/-! ## `check_api_symbols` (validator.py lines 121–155)

`difflib.get_close_matches(name, whitelist, n=1, cutoff=0.6)` is Python
standard library, external to the repository; it is modelled as an
arbitrary function parameter `cm : String → List String → List String`
(the name and the whitelist to its candidate list).  As in the source,
only emptiness and the first element of its result are ever used. -/

/-- If `n` is an `ast.Attribute` whose value is the `ast.Name` `mdp`,
return the accessed attribute name. -/
def isMdpAttr (n : PyNode) : Option String :=
  match n with
  | .mk (.attribute a) (v :: _) =>
    match v.kind with
    | .nameExpr id => if id = "mdp" then some a else none
    | _ => none
  | _ => none

/-- The error string for one unknown symbol, with the optional single
best-match suggestion (lines 147–153). -/
def unknownMsg (cm : String → List String → List String) (wl : List String)
    (name : String) : String :=
  let suggestion :=
    match cm name wl with
    | [] => ""
    | m :: _ => " Did you mean: mdp." ++ m ++ "?"
  "Unknown MDP function: mdp." ++ name ++ "." ++ suggestion

/-- The `for node in ast.walk(tree)` loop of `check_api_symbols`, with its
`seen` set (lines 132–153). -/
def collectUnknown (cm : String → List String → List String) (wl : List String) :
    List PyNode → List String → List String
  | [], _ => []
  | n :: rest, seen =>
    match isMdpAttr n with
    | some a =>
      if a ∈ seen then collectUnknown cm wl rest seen
      else if a ∈ wl then collectUnknown cm wl rest (a :: seen)
      else unknownMsg cm wl a :: collectUnknown cm wl rest (a :: seen)
    | none => collectUnknown cm wl rest seen

/-- `check_api_symbols(code, whitelist)`.  The function re-parses `code`;
deterministic parsing means the outcome equals the artifact's parse
outcome, which is what is passed here. -/
def check_api_symbols (cm : String → List String → List String)
    (parsed : Except SyntaxErr PyNode) (wl : List String) : List String :=
  match parsed with
  | .error _ => []
  | .ok tree => collectUnknown cm wl (astWalk tree) []

/-! ## The validator's regex `import\s+isaaclab_tasks\.manager_based\.\S+\.mdp\s+as\s+mdp`

(validator.py line 245; the same pattern is `task_mdp_pattern` in
generator.py lines 204–206.)  Since `\S+` is a maximal run of non-space
characters and the pattern continues `\.mdp\s`, a match requires the run
after `isaaclab_tasks.manager_based.` to end in `.mdp` preceded by at
least one more character; every `\s+`-vs-literal juncture is
deterministic because each following literal starts with a non-space
character.  The matcher returns the consumed length. -/

/-- Match a literal, returning the rest. -/
def litPrefix (lit : List Char) (cs : List Char) : Option (List Char) :=
  if lit.isPrefixOf cs then some (cs.drop lit.length) else none

/-- Match `\s+`, returning the rest (`none` if no whitespace). -/
def spacePlus (cs : List Char) : Option (List Char) :=
  let ws := cs.takeWhile isSpaceChar
  if ws.isEmpty then none else some (cs.drop ws.length)

/-- Try the task-mdp import pattern at the head of `s`; `some n` is the
number of characters consumed. -/
def matchTaskMdpA (s : List Char) : Option Nat := do
  let r1 ← litPrefix "import".data s
  let r2 ← spacePlus r1
  let r3 ← litPrefix "isaaclab_tasks.manager_based.".data r2
  let run := r3.takeWhile (fun c => !isSpaceChar c)
  if run.length ≥ 5 && (".mdp".data).isSuffixOf run then
    let r4 := r3.drop run.length
    let r5 ← spacePlus r4
    let r6 ← litPrefix "as".data r5
    let r7 ← spacePlus r6
    if ("mdp".data).isPrefixOf r7 then
      some (s.length - (r7.length - 3))
    else none
  else none

/-- `pattern.search`: does the matcher succeed at some position? -/
def regexSearch (m : List Char → Option Nat) : List Char → Bool
  | [] => (m []).isSome
  | c :: t => (m (c :: t)).isSome || regexSearch m t

/-! ## `validate_config` (validator.py lines 158–268) -/

/-- `result.is_valid = False; result.errors.append(msg)`. -/
def failWith (r : ValidationResult) (msg : String) : ValidationResult :=
  { r with is_valid := false, errors := r.errors ++ [msg] }

/-- `result.warnings.append(msg)`. -/
def warnWith (r : ValidationResult) (msg : String) : ValidationResult :=
  { r with warnings := r.warnings ++ [msg] }

def PyNode.classDefName : PyNode → Option String
  | .mk (.classDef n) _ => some n
  | _ => none

def PyNode.functionDefName : PyNode → Option String
  | .mk (.functionDef n) _ => some n
  | _ => none

/-- One node's contribution to the import check (lines 211–220): an
`ast.Import` with an alias containing `isaaclab` or `omni.isaac`, or an
`ast.ImportFrom` whose module is not `None` and contains one of them. -/
def isIsaacImport (n : PyNode) : Bool :=
  match n.kind with
  | .importStmt names =>
    names.any (fun nm => containsSub "isaaclab" nm || containsSub "omni.isaac" nm)
  | .importFrom (some m) => containsSub "isaaclab" m || containsSub "omni.isaac" m
  | _ => false

def syntaxErrorMsg (e : SyntaxErr) : String :=
  s!"SyntaxError at line {e.lineno}: {e.msg}"

def msgMissingEnvCfg : String :=
  "Missing environment config class: no class with \x27EnvCfg\x27 in name found"

def msgMissingRewardsCfg : String :=
  "Missing rewards config: no class with \x27RewardsCfg\x27 in name found"

def msgMissingPostInit : String := "Missing __post_init__ method"

def msgMissingImports : String :=
  "Missing Isaac Lab imports: no imports from \x27isaaclab\x27 or \x27omni.isaac\x27 found"

def msgNucleusLiteral : String :=
  "Literal ISAACLAB_NUCLEUS_DIR string found — use pre-built robot config " ++
  "(e.g. CARTPOLE_CFG.replace(prim_path=\x27\x7bENV_REGEX_NS\x7d/Robot\x27)) instead"

def msgTaskMdpWarning : String :=
  "Task-specific mdp import found (isaaclab_tasks.manager_based.*.mdp). " ++
  "Use \x27import isaaclab.envs.mdp as mdp\x27 for external configs."

/-- `isinstance(value, (int, float))` — `bool` is a subclass of `int` —
and the exact numeric value. -/
def numericValue : PyConst → Option ℚ
  | .int i => some (i : ℚ)
  | .float q => some q
  | .bool b => some (if b then 1 else 0)
  | _ => none

/-- Python `abs` on a constant: defined for numbers, `TypeError` otherwise. -/
def pyAbs : PyConst → Except PyExc ℚ
  | .int i => .ok |(i : ℚ)|
  | .float q => .ok |q|
  | .bool b => .ok (if b then 1 else 0)
  | .str _ => .error .typeError
  | .pynone => .error .typeError

/-- `str(value)` as used by the warning f-string.  (For floats, Python's
repr of the value; message text is never load-bearing for any claim.) -/
def pyStrConst : PyConst → String
  | .int i => toString i
  | .float q => toString q
  | .bool b => if b then "True" else "False"
  | .str s => s
  | .pynone => "None"

/-- One node of the reward-weight warning loop (lines 252–266).  The
`ast.Constant` branch guards numeric-ness before `abs`; the
`ast.UnaryOp(USub)` branch applies `abs` to any constant operand. -/
def weightWarnStep (r : ValidationResult) (n : PyNode) : Except PyExc ValidationResult :=
  match n with
  | .mk (.keywordArg (some "weight")) (v :: _) =>
    match v with
    | .mk (.constant c) _ =>
      match numericValue c with
      | some q =>
        if |q| > 10 then .ok (warnWith r s!"Unusually large reward weight: {pyStrConst c}")
        else .ok r
      | none => .ok r
    | .mk (.unaryOp true) (o :: _) =>
      match o with
      | .mk (.constant c) _ =>
        match pyAbs c with
        | .error exc => .error exc
        | .ok w =>
          if w > 10 then .ok (warnWith r s!"Unusually large reward weight: -{pyStrConst c}")
          else .ok r
      | _ => .ok r
    | _ => .ok r
  | _ => .ok r

/-- The full reward-weight loop over all walked nodes. -/
def weightLoop (nodes : List PyNode) (r : ValidationResult) :
    Except PyExc ValidationResult :=
  nodes.foldlM weightWarnStep r

/-- Checks 2–8 of `validate_config` (everything after a successful parse
and before the reward-weight loop), in source order. -/
def structuralChecks (cm : String → List String → List String)
    (wl : List String) (text : String) (tree : PyNode) : ValidationResult :=
  let nodes := astWalk tree
  let class_names := nodes.filterMap PyNode.classDefName
  let method_names := nodes.filterMap PyNode.functionDefName
  let r : ValidationResult := {}
  let r := if class_names.any (fun n => containsSub "EnvCfg" n) then r
           else failWith r msgMissingEnvCfg
  let r := if class_names.any (fun n => containsSub "RewardsCfg" n) then r
           else failWith r msgMissingRewardsCfg
  let r := if method_names.contains "__post_init__" then r
           else failWith r msgMissingPostInit
  let r := if nodes.any isIsaacImport then r
           else failWith r msgMissingImports
  let r :=
    if wl.isEmpty then r
    else
      let unk := check_api_symbols cm (.ok tree) wl
      if unk.isEmpty then r
      else { r with is_valid := false, errors := r.errors ++ unk }
  let r := if containsSub "\"ISAACLAB_NUCLEUS_DIR/" text ||
              containsSub "\x27ISAACLAB_NUCLEUS_DIR/" text
           then failWith r msgNucleusLiteral else r
  let r := if regexSearch matchTaskMdpA text.data then warnWith r msgTaskMdpWarning
           else r
  r

/-- `validate_config(code)` over a source artifact, with the loaded
whitelist `wl` (the `load_api_whitelist()` result) and the difflib
close-match function `cm` as explicit parameters.  The result is
`Except`: the reward-weight loop can raise. -/
def validate_config (cm : String → List String → List String)
    (wl : List String) (src : PySource) : Except PyExc ValidationResult :=
  match src.parsed with
  | .error e =>
    .ok { is_valid := false, errors := [syntaxErrorMsg e], warnings := [], corrections := [] }
  | .ok tree => weightLoop (astWalk tree) (structuralChecks cm wl src.text tree)

/-! ## Claims about the validator: C10, C8, C3, C4, C9 -/

/-- The artifact `f(weight=-"x")`: a parseable call whose `weight` keyword
argument is a unary-negated string constant.  (Module → Expr statement →
Call with function name `f` and one keyword.) -/
def weightCrashTree : PyNode :=
  .mk .other [ .mk .other [ .mk .other
    [ .mk (.nameExpr "f") [],
      .mk (.keywordArg (some "weight"))
        [ .mk (.unaryOp true) [ .mk (.constant (.str "x")) [] ] ] ] ] ]

def weightCrashSrc : PySource :=
  ⟨"f(weight=-\"x\")", .ok weightCrashTree⟩

/-! ## The repair loop (cli.py lines 19 and 96–149)

`_run_pipeline` first auto-corrects and validates the generated artifact,
then runs `for attempt in range(MAX_REPAIR_ATTEMPTS)`: the loop breaks as
soon as the verdict is valid, otherwise it issues one repair request to the
Generator collaborator, auto-corrects the response and re-validates.  After
the loop the (possibly still invalid) artifact and its verdict are used
unconditionally.  The collaborators are modelled as function parameters:
`validate` is `validate_config` (note its `Except` type: a validation call
can raise, and `_run_pipeline` wraps none of its calls in a handler, so an
exception propagates out of step 4 and no artifact or verdict is returned),
`correct` is `auto_correct_code`, and `repairFn code errors` is the
Generator's response to
`repair_config(client, code, errors, context, whitelist_hint)` — an
arbitrary function, covering every possible sequence of responses. -/

def MAX_REPAIR_ATTEMPTS : Nat := 2

/-- The `for attempt in range(n)` repair loop, carrying the current
artifact and verdict.  On a normal exit it returns the final artifact, the
final verdict, and the number of repair requests issued; an exception
raised by a re-validation call propagates (`.error`), dropping both. -/
def repairLoop {α : Type} (validate : α → Except PyExc ValidationResult)
    (correct : α → α × List String) (repairFn : α → List String → α) :
    Nat → α → ValidationResult → Except PyExc (α × ValidationResult × Nat)
  | 0, code, verdict => .ok (code, verdict, 0)
  | n + 1, code, verdict =>
    if verdict.is_valid then .ok (code, verdict, 0)
    else
      let repaired := repairFn code verdict.errors
      let code' := (correct repaired).1
      match validate code' with
      | .error e => .error e
      | .ok verdict' =>
        match repairLoop validate correct repairFn n code' verdict' with
        | .error e => .error e
        | .ok (c, v, k) => .ok (c, v, k + 1)

/-- Step 4 of `_run_pipeline`: auto-correct, validate (an exception here
also propagates, before any repair request), then the repair loop. -/
def runPipelineValidation {α : Type} (validate : α → Except PyExc ValidationResult)
    (correct : α → α × List String) (repairFn : α → List String → α)
    (raw : α) : Except PyExc (α × ValidationResult × Nat) :=
  let code := (correct raw).1
  match validate code with
  | .error e => .error e
  | .ok verdict => repairLoop validate correct repairFn MAX_REPAIR_ATTEMPTS code verdict

/-- `PySource`-level `auto_correct_code`, for instantiating the loop model
with this file's `validate_config`: the corrected text paired with its
parse outcome.  Correction never introduces or repairs a syntax error on
the artifacts considered here; on an artifact the corrector leaves
unchanged (no table pattern occurs) the original parse outcome is exact. -/
def correctSrc (src : PySource) : PySource × List String :=
  (⟨(auto_correct_code src.text).1, src.parsed⟩, (auto_correct_code src.text).2)

/-- A parseable artifact with none of the required structure (`x = 1`):
its verdict is invalid, so the orchestrator issues a repair request. -/
def invalidStubSrc : PySource :=
  ⟨"x = 1", .ok (.mk .other [])⟩

/-! ### C4: `is_valid` is false iff `errors` is non-empty -/

/-- The C4 invariant. -/
def VerdictConsistent (r : ValidationResult) : Prop :=
  r.is_valid = false ↔ r.errors ≠ []

/-! ### C9: deduplication and format of the whitelist symbol check -/

/-- The unknown attribute names collected by `check_api_symbols`, in
emission order (the error list is their image under `unknownMsg`). -/
def collectUnknownNames (wl : List String) :
    List PyNode → List String → List String
  | [], _ => []
  | n :: rest, seen =>
    match isMdpAttr n with
    | some a =>
      if a ∈ seen then collectUnknownNames wl rest seen
      else if a ∈ wl then collectUnknownNames wl rest (a :: seen)
      else a :: collectUnknownNames wl rest (a :: seen)
    | none => collectUnknownNames wl rest seen

/-- An `mdp.a` attribute-access node. -/
def mdpAttrNode (a : String) : PyNode :=
  .mk (.attribute a) [.mk (.nameExpr "mdp") []]

/-- A parse tree referencing `mdp.totally_fake_function` twice and a
whitelisted symbol once (scenario C of the specification). -/
def fakeFnTree : PyNode :=
  .mk .other
    [mdpAttrNode "totally_fake_function",
     mdpAttrNode "totally_fake_function",
     mdpAttrNode "is_alive"]

/-! ## The correction fold: establishing and preserving match-freeness -/

/-! ## C7: word-boundary safety of the auto-corrector -/

/-- The boundary context after a maximal identifier run: nothing, or any
non-word character (this includes an attribute dot, as in
`mdp.some_name.field`). -/
def BoundaryHead (suf : List Char) : Prop :=
  suf = [] ∨ ∃ c0 t0, suf = c0 :: t0 ∧ isWordChar c0 = false

/-! ## `post_process_env_cfg` (generator.py lines 157–302)

The deterministic normalizer.  Its four steps use five regular
expressions, each embedded as an explicit scanner returning the consumed
length of a match attempt at the current position (regex semantics as
described in the file header; each backtracking point of the concrete
patterns is treated exactly: the `\S+` of the task-mdp patterns forces the
non-space run to end in `.mdp`, the `\s+` before `[^\n(]+` in pattern C
backtracks greedily, and the `\s*` before the line-local negative
lookahead of the inline-robot pattern backtracks greedily). -/

/-- `pattern.sub(repl, s)`: replace every leftmost non-overlapping match,
scanning left to right and continuing after each replaced span.  (All
matchers used here consume at least one character; a zero-length result is
treated as no match, which can never fire.)  Structural recursion on a
fuel that starts at the text length: every step consumes at least one
character, so the fuel is exact and the `0`-fuel row is unreachable. -/
def regexSubFuel (m : List Char → Option Nat) (repl : List Char) :
    Nat → List Char → List Char
  | _, [] => []
  | 0, s => s
  | fuel + 1, c :: t =>
    match m (c :: t) with
    | some (n + 1) => repl ++ regexSubFuel m repl fuel ((c :: t).drop (n + 1))
    | _ => c :: regexSubFuel m repl fuel t

def regexSub (m : List Char → Option Nat) (repl : List Char) (s : List Char) : List Char :=
  regexSubFuel m repl s.length s

/-- Pattern B (generator.py lines 214–217), `re.DOTALL`:
`from\s+isaaclab_tasks\.manager_based\.\S+\.mdp\s+import\s+\([^)]*\)\s*\n?`.
The `[^)]*` is the run up to the first `)`; the trailing `\s*\n?` greedily
takes the whole following whitespace run. -/
def matchTaskMdpB (s : List Char) : Option Nat := do
  let r1 ← litPrefix "from".data s
  let r2 ← spacePlus r1
  let r3 ← litPrefix "isaaclab_tasks.manager_based.".data r2
  let run := r3.takeWhile (fun c => !isSpaceChar c)
  if run.length ≥ 5 && (".mdp".data).isSuffixOf run then
    let r4 := r3.drop run.length
    let r5 ← spacePlus r4
    let r6 ← litPrefix "import".data r5
    let r7 ← spacePlus r6
    let r8 ← litPrefix "(".data r7
    let inner := r8.takeWhile (fun c => c ≠ ')')
    match r8.drop inner.length with
    | ')' :: r9 =>
      let ws := r9.takeWhile isSpaceChar
      some (s.length - (r9.length - ws.length))
    | _ => none
  else none

/-- The `[^\n(]+\n?` tail of pattern C at a candidate position. -/
def tryTailC (rest : List Char) : Option (List Char) :=
  match rest with
  | c :: _ =>
    if c ≠ '\n' && c ≠ '(' then
      let cls := rest.takeWhile (fun x => x ≠ '\n' && x ≠ '(')
      match rest.drop cls.length with
      | '\n' :: r2 => some r2
      | r2 => some r2
    else none
  | [] => none

/-- Greedy backtracking of the `\s+` before `[^\n(]+` in pattern C: try
consuming `k` whitespace characters, largest `k` first, smallest 1. -/
def backtrackC (ws after : List Char) : Nat → Option (List Char)
  | 0 => none
  | k + 1 =>
    match tryTailC (ws.drop (k + 1) ++ after) with
    | some rem => some rem
    | none => backtrackC ws after k

/-- Pattern C (generator.py lines 227–229):
`from\s+isaaclab_tasks\.manager_based\.\S+\.mdp\s+import\s+[^\n(]+\n?`. -/
def matchTaskMdpC (s : List Char) : Option Nat := do
  let r1 ← litPrefix "from".data s
  let r2 ← spacePlus r1
  let r3 ← litPrefix "isaaclab_tasks.manager_based.".data r2
  let run := r3.takeWhile (fun c => !isSpaceChar c)
  if run.length ≥ 5 && (".mdp".data).isSuffixOf run then
    let r4 := r3.drop run.length
    let r5 ← spacePlus r4
    let r6 ← litPrefix "import".data r5
    let ws := r6.takeWhile isSpaceChar
    if ws.isEmpty then none
    else
      match backtrackC ws (r6.drop ws.length) ws.length with
      | some rem => some (s.length - rem.length)
      | none => none
  else none

/-- The literal-nucleus regex of step 4 (line 296):
`"ISAACLAB_NUCLEUS_DIR/[^"]*"`. -/
def matchNucleusLit (s : List Char) : Option Nat := do
  let r1 ← litPrefix "\"ISAACLAB_NUCLEUS_DIR/".data s
  let inner := r1.takeWhile (fun c => c ≠ '"')
  match r1.drop inner.length with
  | '"' :: r2 => some (s.length - r2.length)
  | _ => none

/-- `RobotConfig` (generator.py lines 159–163). -/
structure RobotConfig where
  import_line : String
  cfg_name : String
  robot_line : String
  deriving Repr, DecidableEq

/-- `CATEGORY_ROBOT_CONFIG` (generator.py lines 165–186). -/
def CATEGORY_ROBOT_CONFIG : List (String × RobotConfig) :=
  [ ("classic_cartpole",
     { import_line := "from isaaclab_assets.robots.cartpole import CARTPOLE_CFG  # isort:skip",
       cfg_name := "CARTPOLE_CFG",
       robot_line := "CARTPOLE_CFG.replace(prim_path=\"\x7bENV_REGEX_NS\x7d/Robot\")" }),
    ("manipulation_reach",
     { import_line := "from isaaclab_assets.robots.franka import FRANKA_PANDA_HIGH_PD_CFG  # isort: skip",
       cfg_name := "FRANKA_PANDA_HIGH_PD_CFG",
       robot_line := "FRANKA_PANDA_HIGH_PD_CFG.replace(prim_path=\"\x7bENV_REGEX_NS\x7d/Robot\")" }),
    ("locomotion_flat",
     { import_line := "from isaaclab_assets.robots.anymal import ANYMAL_D_CFG  # isort: skip",
       cfg_name := "ANYMAL_D_CFG",
       robot_line := "ANYMAL_D_CFG.replace(prim_path=\"\x7bENV_REGEX_NS\x7d/Robot\")" }),
    ("locomotion_rough",
     { import_line := "from isaaclab_assets.robots.anymal import ANYMAL_D_CFG  # isort: skip",
       cfg_name := "ANYMAL_D_CFG",
       robot_line := "ANYMAL_D_CFG.replace(prim_path=\"\x7bENV_REGEX_NS\x7d/Robot\")" }) ]

/-- `\S*[^(\n]*$` on the rest of a line: some split into a space-free part
followed by a parenthesis-free part covers the whole line. -/
def splitOK (L : List Char) : Bool :=
  (List.range (L.length + 1)).any fun k =>
    ((L.take k).all fun c => !isSpaceChar c) && ((L.drop k).all fun c => c ≠ '(')

/-- The injection-point regex of step 2 (generator.py lines 243–245),
tried at a line start: `^(?:from|import)\s+isaaclab(?!_tasks)\S*[^(\n]*$`
(`re.MULTILINE`).  Returns the consumed length, whose end is the `$`
position (before the newline). -/
def matchImportAnchor (s : List Char) : Option Nat := do
  let r1 ← (litPrefix "from".data s).orElse fun _ => litPrefix "import".data s
  let r2 ← spacePlus r1
  let r3 ← litPrefix "isaaclab".data r2
  if ("_tasks".data).isPrefixOf r3 then none
  else
    let L := r3.takeWhile (fun c => c ≠ '\n')
    if splitOK L then some (s.length - (r3.length - L.length))
    else none

/-- `re.finditer` for the injection-point regex: scan line starts, skip
past each match, and keep the end position of the last match. -/
def lastAnchorEnd (s : List Char) (idx : Nat) (atStart : Bool) : Option Nat :=
  match s with
  | [] => none
  | c :: t =>
    if atStart then
      match matchImportAnchor (c :: t) with
      | some (n + 1) =>
        match lastAnchorEnd ((c :: t).drop (n + 1)) (idx + n + 1) false with
        | some e => some e
        | none => some (idx + n + 1)
      | _ => lastAnchorEnd t (idx + 1) (c == '\n')
    else lastAnchorEnd t (idx + 1) (c == '\n')
termination_by s.length
decreasing_by
  · simp only [List.length_drop, List.length_cons]; omega
  · simp
  · simp

/-- `import_section_end` of step 2: the last match end, `0` when none. -/
def importSectionEnd (s : List Char) : Nat := (lastAnchorEnd s 0 true).getD 0

/-- Index of the first occurrence of `p` in a list, if any. -/
def indexOfInfix (p : List Char) : List Char → Option Nat
  | [] => if p.isPrefixOf [] then some 0 else none
  | c :: t =>
    if p.isPrefixOf (c :: t) then some 0
    else (indexOfInfix p t).map (· + 1)

/-- `group(1).split("robot")[0]`: the part before the first `robot`. -/
def indentOf (g1 : List Char) : List Char :=
  match indexOfInfix "robot".data g1 with
  | some i => g1.take i
  | none => g1

def countChar (ch : Char) (l : List Char) : Int :=
  (l.filter (fun c => c = ch)).length

/-- Greedy backtracking of the `\s*` before the line-local negative
lookahead `(?!.*\.replace\()` of the inline-robot pattern: find the
largest whitespace consumption whose following line remainder does not
contain `.replace(`. -/
def btInline (r4 : List Char) : Nat → Option Nat
  | 0 =>
    if !(infixOf ".replace(".data ((r4.take 0 ++ r4).takeWhile (fun c => c ≠ '\n'))
        : Bool) then some 0 else none
  | k + 1 =>
    if !(infixOf ".replace(".data ((r4.drop (k + 1)).takeWhile (fun c => c ≠ '\n'))) then
      some (k + 1)
    else btInline r4 k

/-- The inline-robot pattern of step 3 (generator.py lines 263–267):
`(    robot\s*(?::\s*ArticulationCfg\s*)?=\s*)(?!.*\.replace\().*$`
(`re.MULTILINE`, no anchor).  At a position, returns
`(group-1 length, match length)` — the match extends to its line end. -/
def matchInlineRobot (s : List Char) : Option (Nat × Nat) := do
  let r1 ← litPrefix "    robot".data s
  let ws1 := r1.takeWhile isSpaceChar
  let r2 := r1.drop ws1.length
  let r3 ←
    match r2 with
    | ':' :: rr =>
      let ws2 := rr.takeWhile isSpaceChar
      match litPrefix "ArticulationCfg".data (rr.drop ws2.length) with
      | some rr3 =>
        let ws3 := rr3.takeWhile isSpaceChar
        some (rr3.drop ws3.length)
      | none => none
    | _ => some r2
  match r3 with
  | '=' :: r4 =>
    let ws4 := r4.takeWhile isSpaceChar
    match btInline r4 ws4.length with
    | some k =>
      let g1len := s.length - r4.length + k
      let lk := ((r4.drop k).takeWhile (fun c => c ≠ '\n')).length
      some (g1len, g1len + lk)
    | none => none
  | _ => none

/-- `inline_robot_pattern.search`: first matching position, with the
group-1 and full-match lengths. -/
def searchInlineRobot : List Char → Option (Nat × Nat × Nat)
  | [] =>
    match matchInlineRobot [] with
    | some (g1, ml) => some (0, g1, ml)
    | none => none
  | c :: t =>
    match matchInlineRobot (c :: t) with
    | some (g1, ml) => some (0, g1, ml)
    | none => (searchInlineRobot t).map (fun p => (p.1 + 1, p.2.1, p.2.2))

/-- The balanced-parenthesis scan of step 3 (generator.py lines 276–287):
walk the text after the match, updating the depth per character; when it
reaches zero or below, the extent ends at that character's line end.
`none` means the loop ran out of characters (the extent stays at the match
end). -/
def parenScan (depth : Int) : List Char → Nat → Nat → Option Nat
  | [], _, _ => none
  | ch :: rest', i, totalLen =>
    let depth' := if ch = '(' then depth + 1 else if ch = ')' then depth - 1 else depth
    if depth' ≤ 0 then
      match (ch :: rest').findIdx? (fun x => x = '\n') with
      | some j => some (i + j)
      | none => some totalLen
    else parenScan depth' rest' (i + 1) totalLen

/-- Step 3 of `post_process_env_cfg` (generator.py lines 256–292). -/
def inlineRobotStep (cfg : RobotConfig) (result : List Char) : List Char × List String :=
  match searchInlineRobot result with
  | none => (result, [])
  | some (start, g1len, matchLen) =>
    let g0 := (result.drop start).take matchLen
    if infixOf cfg.cfg_name.data g0 then (result, [])
    else
      let paren0 : Int := countChar '(' g0 - countChar ')' g0
      let rest := result.drop (start + matchLen)
      let extra := (parenScan paren0 rest 0 rest.length).getD 0
      let endPos := start + matchLen + extra
      let indent := indentOf ((result.drop start).take g1len)
      let replacement := indent ++ ("robot: ArticulationCfg = ".data ++ cfg.robot_line.data)
      (result.take start ++ replacement ++ result.drop endPos,
       ["Replaced inline robot definition with " ++ cfg.cfg_name ++ ".replace()"])

def coreMdpImport : String := "import isaaclab.envs.mdp as mdp"

/-- `post_process_env_cfg(code, category)` (generator.py lines 189–302). -/
def post_process_env_cfg (code : String) (category : String) : String × List String :=
  let r0 := code.data
  -- 1A: whole-module aliased import
  let (r1, f1) :=
    if regexSearch matchTaskMdpA r0 then
      (regexSub matchTaskMdpA coreMdpImport.data r0,
       ["Replaced task-specific mdp import with isaaclab.envs.mdp"])
    else (r0, [])
  -- 1B: parenthesized from-import block
  let (r2, f2) :=
    if regexSearch matchTaskMdpB r1 then
      (if infixOf coreMdpImport.data r1 then regexSub matchTaskMdpB [] r1
       else regexSub matchTaskMdpB (coreMdpImport.data ++ ['\n']) r1,
       ["Replaced task-specific from-import mdp block with isaaclab.envs.mdp"])
    else (r1, [])
  -- 1C: single-line from-import
  let (r3, f3) :=
    if regexSearch matchTaskMdpC r2 then
      (if infixOf coreMdpImport.data r2 then regexSub matchTaskMdpC [] r2
       else regexSub matchTaskMdpC (coreMdpImport.data ++ ['\n']) r2,
       ["Replaced task-specific from-import mdp line with isaaclab.envs.mdp"])
    else (r2, [])
  let rc := List.lookup category CATEGORY_ROBOT_CONFIG
  -- 2: inject the robot config import after the last core import line
  let (r4, f4) :=
    match rc with
    | some cfg =>
      if !(infixOf cfg.cfg_name.data r3) then
        let e := importSectionEnd r3
        if e > 0 then
          (r3.take e ++ (('\n' :: '\n' :: cfg.import_line.data) ++ r3.drop e),
           ["Injected robot config import: " ++ cfg.cfg_name])
        else (r3, [])
      else (r3, [])
    | none => (r3, [])
  -- 3: replace an inline robot definition
  let (r5, f5) :=
    match rc with
    | some cfg => inlineRobotStep cfg r4
    | none => (r4, [])
  -- 4: diagnostic for remaining literal nucleus strings
  let f6 :=
    if regexSearch matchNucleusLit r5 then
      ["Warning: literal ISAACLAB_NUCLEUS_DIR string found in code"]
    else []
  (String.mk r5, f1 ++ f2 ++ f3 ++ f4 ++ f5 ++ f6)

/-! ## C1: the normalizer on unknown categories -/

/-! # Theorems -/

/-- Invariant of the loop: on every normal exit, at most `n` repair
requests were issued and the returned verdict is the validation verdict of
the returned artifact. -/
theorem repairLoop_ok_invariant {α : Type} (validate : α → Except PyExc ValidationResult)
    (correct : α → α × List String) (repairFn : α → List String → α) :
    ∀ (n : Nat) (code : α) (verdict : ValidationResult)
      (res : α × ValidationResult × Nat),
      validate code = .ok verdict →
      repairLoop validate correct repairFn n code verdict = .ok res →
      res.2.2 ≤ n ∧ validate res.1 = .ok res.2.1 := by
  intro n
  induction n with
  | zero =>
    intro code verdict res hv h
    simp only [repairLoop] at h
    injection h with h
    rw [← h]
    exact ⟨le_rfl, hv⟩
  | succ n ih =>
    intro code verdict res hv h
    by_cases hval : verdict.is_valid
    · simp only [repairLoop, hval, if_true] at h
      injection h with h
      rw [← h]
      exact ⟨Nat.zero_le _, hv⟩
    · simp only [repairLoop, hval, Bool.false_eq_true, if_false] at h
      split at h
      · exact Except.noConfusion h
      · rename_i verdict2 hv2
        split at h
        · exact Except.noConfusion h
        · rename_i c3 v3 k3 h3
          injection h with h
          obtain ⟨hb, hc⟩ := ih _ _ _ hv2 h3
          rw [← h]
          exact ⟨by simpa using Nat.succ_le_succ hb, hc⟩

/-- **C5.** "For every input artifact and every sequence of Generator
responses, the repair orchestrator loop issues at most 2 repair requests,
terminates, and returns a result (the final artifact together with its
final verdict) whether or not the verdict is valid."  The "always returns
a result" part is false on the code: `_run_pipeline` wraps no
`validate_config` call in a handler, and `validate_config` can raise (the
reward-weight `TypeError` of validator.py line 262).  First conjunct: a
concrete run — a stub artifact whose invalid verdict triggers a repair
request, answered by the Generator with `f(weight=-"x")` — propagates the
exception out of the orchestrator, returning no artifact and no verdict.
Second conjunct: the remainder of the claim holds — whenever the
orchestrator does return (every run in which no validation call raises),
at most `MAX_REPAIR_ATTEMPTS = 2` repair requests were issued and the
final artifact is returned with its own validation verdict, valid or
not, never discarded. -/
theorem repair_loop_crash_or_bounded :
    runPipelineValidation (validate_config (fun _ _ => []) ["is_alive"]) correctSrc
        (fun _ _ => weightCrashSrc) invalidStubSrc = .error .typeError ∧
    (∀ (α : Type) (validate : α → Except PyExc ValidationResult)
        (correct : α → α × List String) (repairFn : α → List String → α)
        (raw : α) (res : α × ValidationResult × Nat),
        runPipelineValidation validate correct repairFn raw = .ok res →
        res.2.2 ≤ MAX_REPAIR_ATTEMPTS ∧ validate res.1 = .ok res.2.1) := by
  constructor
  · rfl
  · intro α validate correct repairFn raw res h
    revert h
    simp only [runPipelineValidation]
    cases hv : validate (correct raw).1 with
    | error e => intro h; exact Except.noConfusion h
    | ok verdict =>
      intro h
      exact repairLoop_ok_invariant validate correct repairFn
        MAX_REPAIR_ATTEMPTS (correct raw).1 verdict res hv h

/-- **C2, counterexample.** The claim "every call to `load_api_whitelist`
returns a set containing every `SUPPLEMENTAL_WHITELIST` symbol, for every
state of the reference directory, present or absent" is false: when the
directory is absent the function returns the empty set before the
supplemental union (validator.py lines 81–82), so the supplemental symbol
`position_command_error` is missing. -/
theorem load_api_whitelist_absent_dir_cex :
    "position_command_error" ∈ SUPPLEMENTAL_WHITELIST ∧
    "position_command_error" ∉ load_api_whitelist none := by
  constructor
  · simp [SUPPLEMENTAL_WHITELIST]
  · simp [load_api_whitelist]

/-- **C2, amended.** Whenever the reference directory exists — whatever
`*.md` files it holds, including none — the set returned by
`load_api_whitelist` contains every symbol of `SUPPLEMENTAL_WHITELIST`. -/
theorem supplemental_subset_of_whitelist (files : List String) (s : String)
    (hs : s ∈ SUPPLEMENTAL_WHITELIST) :
    s ∈ load_api_whitelist (some files) := by
  simp only [load_api_whitelist]
  exact List.mem_append_right _ hs

/-- Witness for C2's amended theorem at a concrete directory state. -/
theorem supplemental_subset_of_whitelist_witness :
    "position_command_error" ∈ load_api_whitelist (some []) :=
  supplemental_subset_of_whitelist [] "position_command_error" (by simp [SUPPLEMENTAL_WHITELIST])

/-- **C10.** On any input whose parse fails, `check_api_symbols` returns
the empty list (and, being a total function of the parse outcome, does not
raise): unknown-symbol errors are never reported for unparseable input;
syntax errors are left to the main validator. -/
theorem check_api_symbols_parse_failure_empty
    (cm : String → List String → List String) (wl : List String) (e : SyntaxErr) :
    check_api_symbols cm (.error e) wl = [] := rfl

/-- **C8.** On any input whose parse fails, `validate_config` returns
immediately (no exception is possible) with a verdict holding exactly one
error — the string naming the failing line number and the parse reason —
an empty warning list, and nothing contributed by any other check. -/
theorem validate_config_parse_failure
    (cm : String → List String → List String) (wl : List String)
    (text : String) (e : SyntaxErr) :
    validate_config cm wl ⟨text, .error e⟩ =
      .ok { is_valid := false, errors := [syntaxErrorMsg e],
            warnings := [], corrections := [] } := rfl

/-- **C3** is a code bug, demonstrated on the model: on the parseable
input `f(weight=-"x")` the reward-weight loop of `validate_config` reaches
`abs(node.value.operand.value)` with a string operand (validator.py line
262) and raises `TypeError` instead of returning a verdict — the sibling
`ast.Constant` branch (line 254) guards numeric-ness first, so the missing
guard in the `ast.UnaryOp` branch contradicts the specified total
contract `validate(code) -> ValidationVerdict`. -/
theorem validate_config_raises_on_negated_string_weight :
    validate_config (fun _ _ => []) ["is_alive"] weightCrashSrc = .error .typeError := by
  rfl

theorem verdictConsistent_empty : VerdictConsistent {} := by
  simp [VerdictConsistent, ValidationResult.is_valid, ValidationResult.errors]

theorem verdictConsistent_failWith (r : ValidationResult) (m : String) :
    VerdictConsistent (failWith r m) := by
  simp [VerdictConsistent, failWith]

theorem verdictConsistent_if_fail (b : Bool) (r : ValidationResult) (m : String)
    (h : VerdictConsistent r) :
    VerdictConsistent (if b then r else failWith r m) := by
  cases b
  · exact verdictConsistent_failWith r m
  · exact h

theorem verdictConsistent_if_fail' (b : Bool) (r : ValidationResult) (m : String)
    (h : VerdictConsistent r) :
    VerdictConsistent (if b then failWith r m else r) := by
  cases b
  · exact h
  · exact verdictConsistent_failWith r m

theorem verdictConsistent_if_warn (b : Bool) (r : ValidationResult) (m : String)
    (h : VerdictConsistent r) :
    VerdictConsistent (if b then warnWith r m else r) := by
  cases b
  · exact h
  · simpa [VerdictConsistent, warnWith] using h

theorem verdictConsistent_wlStep (b : Bool) (r : ValidationResult) (unk : List String)
    (h : VerdictConsistent r) :
    VerdictConsistent
      (if b then r
       else if unk.isEmpty then r
       else { r with is_valid := false, errors := r.errors ++ unk }) := by
  cases b
  · by_cases hu : unk.isEmpty
    · simpa [hu] using h
    · have hne : unk ≠ [] := fun hh => hu (by simp [hh])
      simp [hu, VerdictConsistent, hne]
  · simpa using h

theorem structuralChecks_consistent (cm : String → List String → List String)
    (wl : List String) (text : String) (tree : PyNode) :
    VerdictConsistent (structuralChecks cm wl text tree) := by
  unfold structuralChecks
  exact verdictConsistent_if_warn _ _ _
    (verdictConsistent_if_fail' _ _ _
      (verdictConsistent_wlStep _ _ _
        (verdictConsistent_if_fail _ _ _
          (verdictConsistent_if_fail _ _ _
            (verdictConsistent_if_fail _ _ _
              (verdictConsistent_if_fail _ _ _ verdictConsistent_empty))))))

/-- The reward-weight warning step never touches `errors` or `is_valid`. -/
theorem weightWarnStep_preserves (r : ValidationResult) (n : PyNode)
    (r' : ValidationResult) (h : weightWarnStep r n = .ok r') :
    r'.errors = r.errors ∧ r'.is_valid = r.is_valid := by
  unfold weightWarnStep at h
  repeat' split at h
  all_goals
    first
    | exact Except.noConfusion h
    | (injection h with h; rw [← h]; exact ⟨rfl, rfl⟩)

/-- Neither does the whole reward-weight loop, when it returns. -/
theorem weightLoop_preserves :
    ∀ (nodes : List PyNode) (r r' : ValidationResult),
      weightLoop nodes r = .ok r' →
      r'.errors = r.errors ∧ r'.is_valid = r.is_valid := by
  intro nodes
  induction nodes with
  | nil =>
    intro r r' h
    simp only [weightLoop, List.foldlM] at h
    cases h; exact ⟨rfl, rfl⟩
  | cons n rest ih =>
    intro r r' h
    simp only [weightLoop, List.foldlM] at h
    cases hstep : weightWarnStep r n with
    | error exc =>
      rw [hstep] at h
      exact absurd h (by simp [Bind.bind, Except.bind])
    | ok r1 =>
      rw [hstep] at h
      simp only [Bind.bind, Except.bind] at h
      obtain ⟨h1, h2⟩ := ih r1 r' h
      obtain ⟨h3, h4⟩ := weightWarnStep_preserves r n r1 hstep
      exact ⟨h1.trans h3, h2.trans h4⟩

/-- **C4.** Whenever `validate_config` returns a verdict (for any close
match function, any loaded whitelist and any source artifact), its
`is_valid` field is `false` exactly when its `errors` list is non-empty. -/
theorem validate_config_is_valid_iff_errors
    (cm : String → List String → List String) (wl : List String)
    (src : PySource) (r : ValidationResult)
    (h : validate_config cm wl src = .ok r) :
    r.is_valid = false ↔ r.errors ≠ [] := by
  unfold validate_config at h
  cases hp : src.parsed with
  | error e =>
    rw [hp] at h
    cases h
    simp
  | ok tree =>
    rw [hp] at h
    obtain ⟨he, hv⟩ := weightLoop_preserves _ _ _ h
    rw [he, hv]
    exact structuralChecks_consistent cm wl src.text tree

theorem collectUnknown_eq_map (cm : String → List String → List String)
    (wl : List String) :
    ∀ (nodes : List PyNode) (seen : List String),
      collectUnknown cm wl nodes seen =
        (collectUnknownNames wl nodes seen).map (unknownMsg cm wl) := by
  intro nodes
  induction nodes with
  | nil => intro seen; rfl
  | cons n rest ih =>
    intro seen
    simp only [collectUnknown, collectUnknownNames]
    rcases hm : isMdpAttr n with _ | a
    · exact ih seen
    · by_cases h1 : a ∈ seen
      · simp [h1, ih]
      · by_cases h2 : a ∈ wl
        · simp [h1, h2, ih]
        · simp [h1, h2, ih]

theorem collectUnknownNames_fresh_nodup (wl : List String) :
    ∀ (nodes : List PyNode) (seen : List String),
      (∀ a ∈ collectUnknownNames wl nodes seen, a ∉ seen ∧ a ∉ wl) ∧
      (collectUnknownNames wl nodes seen).Nodup := by
  intro nodes
  induction nodes with
  | nil => intro seen; simp [collectUnknownNames]
  | cons n rest ih =>
    intro seen
    simp only [collectUnknownNames]
    rcases hm : isMdpAttr n with _ | a
    · exact ih seen
    · by_cases h1 : a ∈ seen
      · simp only [if_pos h1]; exact ih seen
      · by_cases h2 : a ∈ wl
        · simp only [if_neg h1, if_pos h2]
          obtain ⟨hf, hn⟩ := ih (a :: seen)
          refine ⟨fun b hb => ?_, hn⟩
          obtain ⟨hbs, hbw⟩ := hf b hb
          exact ⟨fun hbseen => hbs (List.mem_cons_of_mem _ hbseen), hbw⟩
        · simp only [if_neg h1, if_neg h2]
          obtain ⟨hf, hn⟩ := ih (a :: seen)
          constructor
          · intro b hb
            rcases List.mem_cons.mp hb with hba | hbt
            · subst hba; exact ⟨h1, h2⟩
            · obtain ⟨hbs, hbw⟩ := hf b hbt
              exact ⟨fun c => hbs (List.mem_cons_of_mem _ c), hbw⟩
          · refine List.nodup_cons.mpr ⟨fun hmem => ?_, hn⟩
            exact (hf a hmem).1 (List.mem_cons_self a seen)

/-- **C9.** For every close-match function, parse tree and whitelist,
`check_api_symbols` emits the errors `unknownMsg` of a duplicate-free list
of attribute names (at most one error per distinct name accessed on the
`mdp` alias — first occurrence wins); every such name is absent from the
whitelist; every error string contains the unknown name; and each error
carries at most one best-match suggestion (none when the close-match list
is empty, exactly the first candidate otherwise).  In particular, a tree
referencing only the single unknown name `totally_fake_function` (twice)
yields exactly one unknown-symbol error containing that name. -/
theorem check_api_symbols_dedup_and_format :
    (∀ (cm : String → List String → List String) (tree : PyNode) (wl : List String),
      ∃ ns : List String,
        check_api_symbols cm (.ok tree) wl = ns.map (unknownMsg cm wl) ∧
        ns.Nodup ∧
        ∀ a ∈ ns, a ∉ wl ∧
          (∃ pre post, unknownMsg cm wl a = pre ++ (a ++ post)) ∧
          ((cm a wl = [] ∧
             unknownMsg cm wl a = "Unknown MDP function: mdp." ++ a ++ "." ++ "") ∨
           (∃ m l, cm a wl = m :: l ∧
             unknownMsg cm wl a =
               "Unknown MDP function: mdp." ++ a ++ "." ++
                 (" Did you mean: mdp." ++ m ++ "?")))) ∧
    check_api_symbols (fun _ _ => []) (.ok fakeFnTree) ["is_alive"] =
      ["Unknown MDP function: mdp.totally_fake_function."] := by
  constructor
  · intro cm tree wl
    refine ⟨collectUnknownNames wl (astWalk tree) [], ?_, ?_, ?_⟩
    · exact collectUnknown_eq_map cm wl (astWalk tree) []
    · exact (collectUnknownNames_fresh_nodup wl (astWalk tree) []).2
    · intro a ha
      have hwl := ((collectUnknownNames_fresh_nodup wl (astWalk tree) []).1 a ha).2
      refine ⟨hwl, ?_, ?_⟩
      · refine ⟨"Unknown MDP function: mdp.", ?_⟩
        rcases hcm : cm a wl with _ | ⟨m, l⟩
        · exact ⟨"." ++ "", by simp only [unknownMsg, hcm, String.append_assoc]⟩
        · exact ⟨"." ++ (" Did you mean: mdp." ++ m ++ "?"),
            by simp only [unknownMsg, hcm, String.append_assoc]⟩
      · rcases hcm : cm a wl with _ | ⟨m, l⟩
        · exact Or.inl ⟨rfl, by simp [unknownMsg, hcm]⟩
        · exact Or.inr ⟨m, l, rfl, by simp [unknownMsg, hcm]⟩
  · decide

/-- Witness for C4 at a concrete artifact (a parse failure). -/
theorem validate_config_is_valid_iff_errors_witness :
    ((ValidationResult.mk false [syntaxErrorMsg ⟨1, "bad"⟩] [] []).is_valid = false ↔
      (ValidationResult.mk false [syntaxErrorMsg ⟨1, "bad"⟩] [] []).errors ≠ []) :=
  validate_config_is_valid_iff_errors (fun _ _ => []) [] ⟨"(", .error ⟨1, "bad"⟩⟩ _ rfl

/-! ## Occurrence lemmas for the auto-corrector's patterns

A match of `mdp\.w\b` in `s` is an occurrence `s = a ++ (pat w ++ b)` with
`bnd b` (the boundary holds after the pattern).  These lemmas relate the
executable `matchAt` / `hasMatch` / `subWB` to that occurrence form. -/

theorem pat_ne_nil (w : List Char) : pat w ≠ [] := by simp [pat, mdpDot]

theorem bnd_append_pat (x w : List Char) : bnd (pat w ++ x) = false := by
  simp [pat, mdpDot, bnd, isWordChar]

theorem matchAt_iff {w s : List Char} :
    matchAt w s = true ↔ ∃ b, s = pat w ++ b ∧ bnd b = true := by
  constructor
  · intro h
    obtain ⟨hp, hb⟩ := Bool.and_eq_true _ _ |>.mp h
    obtain ⟨b, hb'⟩ := List.isPrefixOf_iff_prefix.mp hp
    refine ⟨b, hb'.symm, ?_⟩
    rw [← hb'] at hb
    simpa [List.drop_left] using hb
  · rintro ⟨b, rfl, hb⟩
    unfold matchAt
    rw [Bool.and_eq_true]
    constructor
    · exact List.isPrefixOf_iff_prefix.mpr ⟨b, rfl⟩
    · simpa [List.drop_left] using hb

theorem matchAt_nil (w : List Char) : matchAt w [] = false := by
  rcases h : matchAt w [] with _ | _
  · rfl
  · obtain ⟨b, hb, -⟩ := matchAt_iff.mp h
    exact absurd hb.symm (by simp [pat, mdpDot])

theorem hasMatch_cons (w : List Char) (c : Char) (t : List Char) :
    hasMatch w (c :: t) = (matchAt w (c :: t) || hasMatch w t) := rfl

theorem hasMatch_iff {w s : List Char} :
    hasMatch w s = true ↔ ∃ a b, s = a ++ (pat w ++ b) ∧ bnd b = true := by
  induction s with
  | nil =>
    simp only [hasMatch, matchAt_nil]
    constructor
    · intro h; cases h
    · rintro ⟨a, b, hab, -⟩
      exact absurd hab.symm (by simp [pat, mdpDot])
  | cons c t ih =>
    rw [hasMatch_cons, Bool.or_eq_true, ih, matchAt_iff]
    constructor
    · rintro (⟨b, hb, hbnd⟩ | ⟨a, b, hab, hbnd⟩)
      · exact ⟨[], b, by simpa using hb, hbnd⟩
      · exact ⟨c :: a, b, by simp [hab], hbnd⟩
    · rintro ⟨a, b, hab, hbnd⟩
      cases a with
      | nil => exact Or.inl ⟨b, by simpa using hab, hbnd⟩
      | cons a0 a' =>
        right
        refine ⟨a', b, ?_, hbnd⟩
        exact (List.cons.injEq _ _ _ _ ▸ hab).2

theorem hasMatch_false_no_occ {w s : List Char} (h : hasMatch w s = false) :
    ∀ a b, s = a ++ (pat w ++ b) → bnd b = false := by
  intro a b hab
  rcases hb : bnd b with _ | _
  · rfl
  · exact absurd (hasMatch_iff.mpr ⟨a, b, hab, hb⟩) (by simp [h])

theorem hasMatch_append_false_right {w x y : List Char}
    (h : hasMatch w (x ++ y) = false) : hasMatch w y = false := by
  rcases hy : hasMatch w y with _ | _
  · rfl
  · obtain ⟨a, b, hab, hbnd⟩ := hasMatch_iff.mp hy
    have : hasMatch w (x ++ y) = true :=
      hasMatch_iff.mpr ⟨x ++ a, b, by simp [hab], hbnd⟩
    simp [h] at this

theorem matchAt_false_of_hasMatch_false {w s : List Char}
    (h : hasMatch w s = false) : matchAt w s = false := by
  cases s with
  | nil => exact matchAt_nil w
  | cons c t =>
    rw [hasMatch_cons, Bool.or_eq_false_iff] at h
    exact h.1

theorem hasMatch_tail_false {w : List Char} {c : Char} {t : List Char}
    (h : hasMatch w (c :: t) = false) : hasMatch w t = false := by
  rw [hasMatch_cons, Bool.or_eq_false_iff] at h
  exact h.2

theorem subWB_nil (w r : List Char) : subWB w r [] = [] := by
  rw [subWB.eq_def]
  simp [matchAt_nil]

theorem subWB_pos {w s : List Char} (r : List Char) (h : matchAt w s = true) :
    subWB w r s = pat r ++ subWB w r (s.drop (pat w).length) := by
  rw [subWB.eq_def]
  simp [h]

theorem subWB_neg {w : List Char} (r : List Char) {c : Char} {t : List Char}
    (h : matchAt w (c :: t) = false) :
    subWB w r (c :: t) = c :: subWB w r t := by
  rw [subWB.eq_def]
  simp [h]

/-- A text without a match is left unchanged by the substitution. -/
theorem subWB_id {w : List Char} (r : List Char) :
    ∀ {s : List Char}, hasMatch w s = false → subWB w r s = s := by
  intro s
  induction s with
  | nil => intro _; exact subWB_nil w r
  | cons c t ih =>
    intro h
    rw [subWB_neg r (matchAt_false_of_hasMatch_false h)]
    rw [ih (hasMatch_tail_false h)]

/-- First-match decomposition: if `s` has a match, `subWB` copies a prefix
verbatim, replaces a first occurrence, and recurses on the rest. -/
theorem subWB_decomp {w : List Char} (r : List Char) :
    ∀ {s : List Char}, hasMatch w s = true →
      ∃ t₁ b, s = t₁ ++ (pat w ++ b) ∧ bnd b = true ∧
        subWB w r s = t₁ ++ (pat r ++ subWB w r b) := by
  intro s
  induction s with
  | nil => intro h; rw [hasMatch, matchAt_nil] at h; cases h
  | cons c t ih =>
    intro h
    rcases hm : matchAt w (c :: t) with _ | _
    · rw [hasMatch_cons, hm, Bool.false_or] at h
      obtain ⟨t₁, b, ht, hb, hs⟩ := ih h
      refine ⟨c :: t₁, b, by simp [ht], hb, ?_⟩
      rw [subWB_neg r hm, hs]
      simp
    · obtain ⟨b, hb, hbnd⟩ := matchAt_iff.mp hm
      refine ⟨[], b, by simpa using hb, hbnd, ?_⟩
      rw [subWB_pos r hm]
      have hd : (c :: t).drop (pat w).length = b := by
        rw [hb, List.drop_left]
      rw [hd]
      simp

/-- The word 'm' is a word character (head of every pattern). -/
theorem isWordChar_m : isWordChar 'm' = true := by decide

/-- `subWB` preserves a boundary-satisfying head: the output of
substituting inside a text whose head satisfies the boundary condition
still satisfies it (a replacement block starts with the word char `m`,
so it can never be the head of such a text). -/
theorem subWB_preserves_bnd {w b : List Char} (r : List Char)
    (hb : bnd b = true) : bnd (subWB w r b) = true := by
  cases b with
  | nil => rw [subWB_nil]; rfl
  | cons c t =>
    have hcw : isWordChar c = false := by
      rcases h : isWordChar c with _ | _
      · rfl
      · rw [bnd] at hb; rw [h] at hb; cases hb
    have hm : matchAt w (c :: t) = false := by
      rcases h : matchAt w (c :: t) with _ | _
      · rfl
      · obtain ⟨b', hb', -⟩ := matchAt_iff.mp h
        have : c = 'm' := by
          have := hb'
          simp [pat, mdpDot] at this
          exact this.1
        rw [this] at hcw
        rw [isWordChar_m] at hcw
        cases hcw
    rw [subWB_neg r hm]
    rwa [bnd] at hb ⊢

/-- Walk the suffixes of `pat x = 'm'::'d'::'p'::'.':: x`. -/
theorem suffix_pat_cases {m x : List Char} (h : m <:+ pat x) :
    m = pat x ∨ m = 'd' :: 'p' :: '.' :: x ∨ m = 'p' :: '.' :: x ∨
    m = '.' :: x ∨ m <:+ x := by
  simp only [pat, mdpDot, List.cons_append, List.nil_append] at h
  rcases List.suffix_cons_iff.mp h with h1 | h
  · exact Or.inl (by simp [pat, mdpDot, h1])
  rcases List.suffix_cons_iff.mp h with h1 | h
  · exact Or.inr (Or.inl h1)
  rcases List.suffix_cons_iff.mp h with h1 | h
  · exact Or.inr (Or.inr (Or.inl h1))
  rcases List.suffix_cons_iff.mp h with h1 | h
  · exact Or.inr (Or.inr (Or.inr (Or.inl h1)))
  · exact Or.inr (Or.inr (Or.inr (Or.inr h)))

/-- Walk the prefixes of `pat x`. -/
theorem prefix_pat_cases {m x : List Char} (h : m <+: pat x) :
    m = [] ∨ m = ['m'] ∨ m = ['m', 'd'] ∨ m = ['m', 'd', 'p'] ∨
    ∃ mu, m = mdpDot ++ mu ∧ mu <+: x := by
  simp only [pat, mdpDot, List.cons_append, List.nil_append] at h
  rcases List.prefix_cons_iff.mp h with h1 | ⟨t1, rfl, ha⟩
  · exact Or.inl h1
  rcases List.prefix_cons_iff.mp ha with h1 | ⟨t2, rfl, hb⟩
  · exact Or.inr (Or.inl (by simp [h1]))
  rcases List.prefix_cons_iff.mp hb with h1 | ⟨t3, rfl, hc⟩
  · exact Or.inr (Or.inr (Or.inl (by simp [h1])))
  rcases List.prefix_cons_iff.mp hc with h1 | ⟨t4, rfl, hd⟩
  · exact Or.inr (Or.inr (Or.inr (Or.inl (by simp [h1]))))
  · exact Or.inr (Or.inr (Or.inr (Or.inr ⟨t4, by simp [mdpDot], hd⟩)))

/-- A list of word characters contains no dot. -/
theorem no_dot_of_words {x : List Char} (hx : ∀ c ∈ x, isWordChar c = true) :
    '.' ∉ x := by
  intro hmem
  have := hx _ hmem
  rw [show isWordChar '.' = false by decide] at this
  cases this

/-- No occurrence of `mdp\.u\b` can start inside a freshly written
replacement block `pat r` followed by a boundary-satisfying, match-free
rest.  Table side conditions: `u` and `r` are non-empty words, `u ≠ r`,
and `r` does not end in `mdp`. -/
theorem no_match_patr_append
    {u r out' : List Char}
    (hu_words : ∀ c ∈ u, isWordChar c = true)
    (hr_words : ∀ c ∈ r, isWordChar c = true)
    (hur : u ≠ r)
    (hr_mdp : ¬ (['m', 'd', 'p'] <:+ r))
    (hout : hasMatch u out' = false)
    (hbnd : bnd out' = true) :
    hasMatch u (pat r ++ out') = false := by
  rcases h : hasMatch u (pat r ++ out') with _ | _
  · rfl
  exfalso
  obtain ⟨a, k, heq, hbk⟩ := hasMatch_iff.mp h
  rcases List.append_eq_append_iff.mp heq with ⟨m, hm1, hm2⟩ | ⟨m, hm1, hm2⟩
  · -- the occurrence lies inside out'
    rw [hasMatch_iff.mpr ⟨m, k, hm2, hbk⟩] at hout
    cases hout
  · -- pat r = a ++ m  and  pat u ++ k = m ++ out'
    have hsuf : m <:+ pat r := ⟨a, hm1.symm⟩
    rcases List.append_eq_append_iff.mp hm2 with ⟨j, hj1, hj2⟩ | ⟨j, hj1, hj2⟩
    · -- m = pat u ++ j, k = j ++ out'
      rcases suffix_pat_cases hsuf with hc | hc | hc | hc | hc
      · -- m = pat r : u ++ j = r
        rw [hj1] at hc
        have hur' : u ++ j = r := by
          apply @List.append_cancel_left _ mdpDot _ _
          simpa [pat, List.append_assoc] using hc
        cases j with
        | nil => exact hur (by simpa using hur')
        | cons j0 j' =>
          have hj0 : isWordChar j0 = true := by
            apply hr_words
            rw [← hur']
            simp
          rw [hj2] at hbk
          simp [bnd, hj0] at hbk
      · rw [hj1] at hc; simp [pat, mdpDot] at hc
      · rw [hj1] at hc; simp [pat, mdpDot] at hc
      · rw [hj1] at hc; simp [pat, mdpDot] at hc
      · -- m <:+ r but m contains the dot of pat u
        have hdot : ('.' : Char) ∈ m := by
          rw [hj1]; simp [pat, mdpDot]
        exact no_dot_of_words hr_words (hc.subset hdot)
    · -- pat u = m ++ j, out' = j ++ k
      have hpre : m <+: pat u := ⟨j, hj1.symm⟩
      rcases prefix_pat_cases hpre with hc | hc | hc | hc | ⟨mu, hmu, hmuu⟩
      · -- m = [] : the occurrence starts exactly at out'
        subst hc
        simp only [List.nil_append] at hj1 hj2
        rw [hasMatch_iff.mpr ⟨[], k, by simp [hj2, hj1], hbk⟩] at hout
        cases hout
      · -- m = ['m'] : out' starts with the word character 'd'
        subst hc
        have : j = 'd' :: 'p' :: '.' :: u := by
          have := hj1
          simp [pat, mdpDot] at this
          exact this.symm
        rw [hj2, this] at hbnd
        simp [bnd, isWordChar] at hbnd
      · -- m = ['m','d'] : out' starts with 'p'
        subst hc
        have : j = 'p' :: '.' :: u := by
          have := hj1
          simp [pat, mdpDot] at this
          exact this.symm
        rw [hj2, this] at hbnd
        simp [bnd, isWordChar] at hbnd
      · -- m = ['m','d','p'] : r would end in mdp
        subst hc
        rcases suffix_pat_cases hsuf with hd | hd | hd | hd | hd
        · simp [pat, mdpDot] at hd
        · simp at hd
        · simp at hd
        · simp at hd
        · exact hr_mdp hd
      · -- m = mdpDot ++ mu with mu <+: u
        rcases suffix_pat_cases hsuf with hd | hd | hd | hd | hd
        · -- m = pat r : mu = r, u = r ++ j
          rw [hmu] at hd
          have hmur : mu = r := by
            apply @List.append_cancel_left _ mdpDot _ _
            simpa [pat] using hd
          have hu_split : u = r ++ j := by
            apply @List.append_cancel_left _ mdpDot _ _
            rw [show mdpDot ++ u = pat u from rfl, hj1, hmu, hmur]
            simp [List.append_assoc]
          cases j with
          | nil => exact hur (by simpa using hu_split)
          | cons j0 j' =>
            have hj0 : isWordChar j0 = true := by
              apply hu_words
              rw [hu_split]
              simp
            rw [hj2] at hbnd
            simp [bnd, hj0] at hbnd
        · rw [hmu] at hd; simp [mdpDot] at hd
        · rw [hmu] at hd; simp [mdpDot] at hd
        · rw [hmu] at hd; simp [mdpDot] at hd
        · -- m <:+ r contains a dot
          have hdot : ('.' : Char) ∈ m := by
            rw [hmu]; simp [mdpDot]
          exact no_dot_of_words hr_words (hd.subset hdot)

/-- Walk the suffixes of `'d'::'p'::'.'::u` (the tail of `pat u`). -/
theorem suffix_q_cases {m u : List Char} (h : m <:+ 'd' :: 'p' :: '.' :: u) :
    m = 'd' :: 'p' :: '.' :: u ∨ m = 'p' :: '.' :: u ∨ m = '.' :: u ∨ m <:+ u := by
  rcases List.suffix_cons_iff.mp h with ha | h2
  · exact Or.inl ha
  rcases List.suffix_cons_iff.mp h2 with hb | h3
  · exact Or.inr (Or.inl hb)
  rcases List.suffix_cons_iff.mp h3 with hc | h4
  · exact Or.inr (Or.inr (Or.inl hc))
  · exact Or.inr (Or.inr (Or.inr h4))

/-- **Master lemma.**  Substituting one table entry `v → r` never creates a
match of `mdp\.u\b`: if `u = v` (the entry just processed) or the input had
no `u`-match, the output has no `u`-match.  Side conditions are facts about
the correction table: `u, r` consist of word characters, `u ≠ r`, and
neither `u` nor `r` ends in `mdp`. -/
theorem subWB_no_new_match
    {u v r : List Char}
    (hu_words : ∀ c ∈ u, isWordChar c = true)
    (hr_words : ∀ c ∈ r, isWordChar c = true)
    (hur : u ≠ r)
    (hu_mdp : ¬ (['m', 'd', 'p'] <:+ u))
    (hr_mdp : ¬ (['m', 'd', 'p'] <:+ r)) :
    ∀ (n : Nat) (s : List Char), s.length ≤ n →
      (u = v ∨ hasMatch u s = false) →
      hasMatch u (subWB v r s) = false := by
  intro n
  induction n with
  | zero =>
    intro s hlen _
    have hnil : s = [] := List.length_eq_zero.mp (Nat.le_zero.mp hlen)
    subst hnil
    rw [subWB_nil, hasMatch, matchAt_nil]
  | succ n ih =>
    intro s hlen huv
    cases s with
    | nil => rw [subWB_nil, hasMatch, matchAt_nil]
    | cons c t =>
      rcases hm : matchAt v (c :: t) with _ | _
      · -- copy case: output is c :: subWB v r t
        rw [subWB_neg r hm, hasMatch_cons, Bool.or_eq_false_iff]
        have htlen : t.length ≤ n := by
          simp only [List.length_cons] at hlen; omega
        have hIH : hasMatch u (subWB v r t) = false := by
          apply ih t htlen
          rcases huv with h | h
          · exact Or.inl h
          · exact Or.inr (hasMatch_tail_false h)
        refine ⟨?_, hIH⟩
        rcases hma : matchAt u (c :: subWB v r t) with _ | _
        · rfl
        exfalso
        obtain ⟨k, hk, hbk⟩ := matchAt_iff.mp hma
        simp only [pat, mdpDot, List.cons_append, List.nil_append,
          List.cons.injEq] at hk
        obtain ⟨hcm, hdp⟩ := hk
        -- hdp : subWB v r t = 'd' :: 'p' :: '.' :: (u ++ k)
        rcases hmt : hasMatch v t with _ | _
        · -- no match inside t at all: the output equals t
          rw [subWB_id r hmt] at hdp
          have horig : matchAt u (c :: t) = true := by
            apply matchAt_iff.mpr
            refine ⟨k, ?_, hbk⟩
            simp [pat, mdpDot, hcm, hdp]
          rcases huv with hvu | hs
          · rw [← hvu, horig] at hm; cases hm
          · rw [hasMatch_cons, horig] at hs; simp at hs
        · -- first-match decomposition of t
          obtain ⟨t₁, b', ht, hbb, hs⟩ := subWB_decomp r hmt
          rw [hs] at hdp
          have heq2 : t₁ ++ (pat r ++ subWB v r b') = ('d' :: 'p' :: '.' :: u) ++ k := by
            rw [hdp]; simp
          rcases List.append_eq_append_iff.mp heq2 with ⟨m, hm1, hm2⟩ | ⟨m, hm1, hm2⟩
          · -- 'd'::'p'::'.'::u = t₁ ++ m  and  pat r ++ out'' = m ++ k
            have hsufq : m <:+ 'd' :: 'p' :: '.' :: u := ⟨t₁, hm1.symm⟩
            rcases List.append_eq_append_iff.mp hm2 with ⟨j, hj1, hj2⟩ | ⟨j, hj1, hj2⟩
            · -- m = pat r ++ j : m contains a dot yet sits in the tail of pat u
              rcases suffix_q_cases hsufq with hd | hd | hd | hd
              · rw [hj1] at hd; simp [pat, mdpDot] at hd
              · rw [hj1] at hd; simp [pat, mdpDot] at hd
              · rw [hj1] at hd; simp [pat, mdpDot] at hd
              · have hdot : ('.' : Char) ∈ m := by rw [hj1]; simp [pat, mdpDot]
                exact no_dot_of_words hu_words (hd.subset hdot)
            · -- pat r = m ++ j and k = j ++ out''
              have hpre : m <+: pat r := ⟨j, hj1.symm⟩
              rcases prefix_pat_cases hpre with hd | hd | hd | hd | ⟨mu, hmu, hmuu⟩
              · -- m = [] : k starts with the whole replacement block
                subst hd
                simp only [List.nil_append] at hj1 hj2
                rw [hj2, ← hj1, bnd.eq_def] at hbk
                simp [pat, mdpDot, isWordChar] at hbk
              · -- m = ['m'] : k starts with 'd'
                subst hd
                have hj : j = 'd' :: 'p' :: '.' :: r := by
                  have := hj1
                  simp [pat, mdpDot] at this
                  exact this.symm
                rw [hj2, hj, bnd.eq_def] at hbk
                simp [isWordChar] at hbk
              · -- m = ['m','d'] : k starts with 'p'
                subst hd
                have hj : j = 'p' :: '.' :: r := by
                  have := hj1
                  simp [pat, mdpDot] at this
                  exact this.symm
                rw [hj2, hj, bnd.eq_def] at hbk
                simp [isWordChar] at hbk
              · -- m = ['m','d','p'] : u would end in mdp
                subst hd
                rcases suffix_q_cases hsufq with he | he | he | he
                · simp at he
                · simp at he
                · simp at he
                · exact hu_mdp he
              · -- m = mdpDot ++ mu : dot inside the tail of pat u
                rcases suffix_q_cases hsufq with he | he | he | he
                · rw [hmu] at he; simp [mdpDot] at he
                · rw [hmu] at he; simp [mdpDot] at he
                · rw [hmu] at he; simp [mdpDot] at he
                · have hdot : ('.' : Char) ∈ m := by rw [hmu]; simp [mdpDot]
                  exact no_dot_of_words hu_words (he.subset hdot)
          · -- t₁ = ('d'::'p'::'.'::u) ++ m and k = m ++ (pat r ++ out'')
            cases m with
            | nil =>
              -- k starts with the replacement block: boundary fails
              simp only [List.nil_append] at hm2
              rw [hm2, bnd_append_pat] at hbk
              cases hbk
            | cons m0 m' =>
              -- the original text had a u-match at its very head
              have hbm0 : bnd ((m0 :: m') ++ (pat v ++ b')) = true := by
                rw [hm2, bnd.eq_def] at hbk
                rw [bnd.eq_def]
                simpa using hbk
              have horig : matchAt u (c :: t) = true := by
                apply matchAt_iff.mpr
                refine ⟨(m0 :: m') ++ (pat v ++ b'), ?_, hbm0⟩
                rw [ht, hm1, hcm]
                simp [pat, mdpDot]
              rcases huv with hvu | hsf
              · rw [← hvu, horig] at hm; cases hm
              · rw [hasMatch_cons, horig] at hsf; simp at hsf
      · -- replace case: s = pat v ++ b with bnd b
        obtain ⟨b, hb, hbnd⟩ := matchAt_iff.mp hm
        rw [subWB_pos r hm]
        have hdrop : (c :: t).drop (pat v).length = b := by
          rw [hb, List.drop_left]
        rw [hdrop]
        apply no_match_patr_append hu_words hr_words hur hr_mdp
        · apply ih b
          · have := congrArg List.length hb
            simp only [List.length_cons, List.length_append, pat, mdpDot] at this
            simp only [List.length_cons] at hlen
            omega
          · rcases huv with h | h
            · exact Or.inl h
            · rw [hb] at h
              exact Or.inr (hasMatch_append_false_right h)
        · exact subWB_preserves_bnd r hbnd

/-! ## Decided facts about the correction table

These five closed facts about `COMMON_CORRECTIONS` are the side conditions
of the master lemma, checked by evaluation. -/

theorem table_wrong_words :
    ∀ e ∈ COMMON_CORRECTIONS, ∀ c ∈ e.1.data, isWordChar c = true := by decide

theorem table_wrong_ne_nil :
    ∀ e ∈ COMMON_CORRECTIONS, e.1.data ≠ [] := by decide

theorem table_wrong_not_mdp :
    ∀ e ∈ COMMON_CORRECTIONS, ¬ (['m', 'd', 'p'] <:+ e.1.data) := by decide

theorem table_right_ok :
    ∀ e ∈ COMMON_CORRECTIONS, ∀ r ∈ e.2.toList,
      (∀ c ∈ r.data, isWordChar c = true) ∧ ¬ (['m', 'd', 'p'] <:+ r.data) := by
  decide

theorem table_wrong_ne_right :
    ∀ e₁ ∈ COMMON_CORRECTIONS, ∀ e₂ ∈ COMMON_CORRECTIONS, ∀ r ∈ e₂.2.toList,
      e₁.1 ≠ r := by decide

theorem mem_toList_of_eq_some {α : Type} {o : Option α} {a : α} (h : o = some a) :
    a ∈ o.toList := by subst h; simp

theorem data_ne_of_ne {s t : String} (h : s ≠ t) : s.data ≠ t.data :=
  fun hd => h (String.ext hd)

/-- Once the text has no `u`-match, no later table substitution can
reintroduce one. -/
theorem fold_preserves
    {u : List Char}
    (hu_words : ∀ c ∈ u, isWordChar c = true)
    (hu_mdp : ¬ (['m', 'd', 'p'] <:+ u)) :
    ∀ (entries : List (String × Option String)) (acc : List Char × List String),
      (∀ e ∈ entries, ∀ rr, e.2 = some rr →
        (∀ c ∈ rr.data, isWordChar c = true) ∧
        ¬ (['m', 'd', 'p'] <:+ rr.data) ∧ u ≠ rr.data) →
      hasMatch u acc.1 = false →
      hasMatch u (entries.foldl applyCorrection acc).1 = false := by
  intro entries
  induction entries with
  | nil => intro acc _ h; simpa using h
  | cons e rest ih =>
    intro acc hcond hacc
    rw [List.foldl_cons]
    apply ih _ (fun e' he' rr hrr => hcond e' (List.mem_cons_of_mem _ he') rr hrr)
    rcases e with ⟨w, _ | r⟩
    · simpa [applyCorrection] using hacc
    · obtain ⟨hr_words, hr_mdp, hur⟩ := hcond (w, some r) (List.mem_cons_self _ _) r rfl
      by_cases hsm : hasMatch w.data acc.1
      · simp only [applyCorrection, hsm, if_true]
        exact subWB_no_new_match hu_words hr_words hur hu_mdp hr_mdp
          acc.1.length acc.1 le_rfl (Or.inr hacc)
      · simpa [applyCorrection, hsm] using hacc

/-- After the whole correction fold, no table pattern matches the text. -/
theorem fold_establishes :
    ∀ (entries : List (String × Option String)) (acc : List Char × List String),
      (∀ e ∈ entries, ∀ c ∈ e.1.data, isWordChar c = true) →
      (∀ e ∈ entries, ¬ (['m', 'd', 'p'] <:+ e.1.data)) →
      (∀ e ∈ entries, ∀ rr, e.2 = some rr →
        (∀ c ∈ rr.data, isWordChar c = true) ∧ ¬ (['m', 'd', 'p'] <:+ rr.data)) →
      (∀ e₁ ∈ entries, ∀ e₂ ∈ entries, ∀ rr, e₂.2 = some rr → e₁.1.data ≠ rr.data) →
      ∀ e ∈ entries, ∀ r, e.2 = some r →
        hasMatch e.1.data (entries.foldl applyCorrection acc).1 = false := by
  intro entries
  induction entries with
  | nil => intro acc _ _ _ _ e he; cases he
  | cons e0 rest ih =>
    intro acc hwords hmdp hrok hpair e he r hr
    rw [List.foldl_cons]
    rcases List.mem_cons.mp he with rfl | hrest
    · -- the entry just processed: its own step removes all its matches,
      -- later steps preserve that
      have hu_words := hwords e (List.mem_cons_self _ _)
      have hu_mdp := hmdp e (List.mem_cons_self _ _)
      have hafter : hasMatch e.1.data (applyCorrection acc e).1 = false := by
        rcases e with ⟨w, w2⟩
        have hw2 : w2 = some r := hr
        subst hw2
        obtain ⟨hr_words, hr_mdp⟩ :=
          hrok (w, some r) (List.mem_cons_self _ _) r rfl
        have hur : w.data ≠ r.data :=
          hpair (w, some r) (List.mem_cons_self _ _)
            (w, some r) (List.mem_cons_self _ _) r rfl
        by_cases hsm : hasMatch w.data acc.1
        · simp only [applyCorrection, hsm, if_true]
          exact subWB_no_new_match hu_words hr_words hur hu_mdp hr_mdp
            acc.1.length acc.1 le_rfl (Or.inl rfl)
        · simp only [Bool.not_eq_true] at hsm
          simp only [applyCorrection, hsm, if_false, Bool.false_eq_true]
      apply fold_preserves hu_words hu_mdp rest _ ?_ hafter
      intro e' he' rr hrr
      obtain ⟨h1, h2⟩ := hrok e' (List.mem_cons_of_mem _ he') rr hrr
      exact ⟨h1, h2,
        hpair e (List.mem_cons_self _ _) e' (List.mem_cons_of_mem _ he') rr hrr⟩
    · exact ih (applyCorrection acc e0)
        (fun e' he' => hwords e' (List.mem_cons_of_mem _ he'))
        (fun e' he' => hmdp e' (List.mem_cons_of_mem _ he'))
        (fun e' he' => hrok e' (List.mem_cons_of_mem _ he'))
        (fun e₁ h₁ e₂ h₂ => hpair e₁ (List.mem_cons_of_mem _ h₁) e₂ (List.mem_cons_of_mem _ h₂))
        e hrest r hr

/-- A fold over a text none of whose entries match is the identity and
records no corrections. -/
theorem fold_id_of_no_match :
    ∀ (entries : List (String × Option String)) (txt : List Char) (cs : List String),
      (∀ e ∈ entries, ∀ r, e.2 = some r → hasMatch e.1.data txt = false) →
      entries.foldl applyCorrection (txt, cs) = (txt, cs) := by
  intro entries
  induction entries with
  | nil => intro txt cs _; rfl
  | cons e rest ih =>
    intro txt cs h
    rw [List.foldl_cons]
    rcases e with ⟨w, _ | r⟩
    · exact ih txt cs (fun e' he' => h e' (List.mem_cons_of_mem _ he'))
    · have hm := h (w, some r) (List.mem_cons_self _ _) r rfl
      simp only [applyCorrection, hm, if_false, Bool.false_eq_true]
      exact ih txt cs (fun e' he' => h e' (List.mem_cons_of_mem _ he'))

/-- **C6.**  The auto-corrector is idempotent: re-running
`auto_correct_code` on its own output returns the same text with an empty
correction list. -/
theorem auto_correct_code_idempotent (code : String) :
    auto_correct_code (auto_correct_code code).1 = ((auto_correct_code code).1, []) := by
  have hnm : ∀ e ∈ COMMON_CORRECTIONS, ∀ r, e.2 = some r →
      hasMatch e.1.data (COMMON_CORRECTIONS.foldl applyCorrection (code.data, [])).1 = false := by
    apply fold_establishes COMMON_CORRECTIONS (code.data, [])
      table_wrong_words table_wrong_not_mdp
    · intro e he rr hrr
      exact table_right_ok e he rr (mem_toList_of_eq_some hrr)
    · intro e₁ h₁ e₂ h₂ rr hrr
      exact data_ne_of_ne (table_wrong_ne_right e₁ h₁ e₂ h₂ rr (mem_toList_of_eq_some hrr))
  have key : ∀ (txt : List Char),
      (∀ e ∈ COMMON_CORRECTIONS, ∀ r, e.2 = some r → hasMatch e.1.data txt = false) →
      auto_correct_code (String.mk txt) = (String.mk txt, []) := by
    intro txt h
    unfold auto_correct_code
    rw [show (String.mk txt).data = txt from rfl,
      fold_id_of_no_match COMMON_CORRECTIONS txt [] h]
  have h1 : (auto_correct_code code).1 =
      String.mk (COMMON_CORRECTIONS.foldl applyCorrection (code.data, [])).1 := rfl
  rw [h1]
  exact key _ hnm

theorem matchAt_false_of_nonword_head {w : List Char} {c : Char} {t : List Char}
    (h : isWordChar c = false) : matchAt w (c :: t) = false := by
  rcases hm : matchAt w (c :: t) with _ | _
  · rfl
  · obtain ⟨b, hb, -⟩ := matchAt_iff.mp hm
    have hc : c = 'm' := by
      have := hb
      simp [pat, mdpDot] at this
      exact this.1
    rw [hc, isWordChar_m] at h
    cases h

theorem matchAt_false_of_head_ne {w : List Char} {c : Char} {t : List Char}
    (h : c ≠ 'm') : matchAt w (c :: t) = false := by
  rcases hm : matchAt w (c :: t) with _ | _
  · rfl
  · obtain ⟨b, hb, -⟩ := matchAt_iff.mp hm
    have hc : c = 'm' := by
      have := hb
      simp [pat, mdpDot] at this
      exact this.1
    exact absurd hc h

/-- If no match starts inside the first block of a concatenation, the
substitution acts on the second block only. -/
theorem subWB_append_split {w r : List Char} :
    ∀ (s₁ s₂ : List Char),
      (∀ a m, s₁ = a ++ m → m ≠ [] → matchAt w (m ++ s₂) = false) →
      subWB w r (s₁ ++ s₂) = s₁ ++ subWB w r s₂ := by
  intro s₁
  induction s₁ with
  | nil => intro s₂ _; simp
  | cons c t ih =>
    intro s₂ h
    have hm : matchAt w ((c :: t) ++ s₂) = false := h [] (c :: t) rfl (by simp)
    rw [List.cons_append] at hm ⊢
    rw [subWB_neg r hm, ih s₂ (fun a m ha hm' => h (c :: a) m (by simp [ha]) hm')]
    rw [List.cons_append]

/-- Substituting in a text that starts with the four characters `mdp.`
keeps that four-character head: either a match fires right there (and the
replacement re-supplies `mdp.`), or the four characters are copied. -/
theorem subWB_mdpDot {w r : List Char} (t : List Char) :
    ∃ X, subWB w r (mdpDot ++ t) = mdpDot ++ X := by
  by_cases hm : matchAt w (mdpDot ++ t) = true
  · refine ⟨r ++ subWB w r ((mdpDot ++ t).drop (pat w).length), ?_⟩
    rw [subWB_pos r hm]
    simp [pat]
  · rw [Bool.not_eq_true] at hm
    refine ⟨subWB w r t, ?_⟩
    show subWB w r ('m' :: 'd' :: 'p' :: '.' :: t) = 'm' :: 'd' :: 'p' :: '.' :: subWB w r t
    rw [subWB_neg r (by simpa [mdpDot] using hm),
      subWB_neg r (matchAt_false_of_head_ne (by decide)),
      subWB_neg r (matchAt_false_of_head_ne (by decide)),
      subWB_neg r (matchAt_false_of_head_ne (by decide))]

/-- No table pattern `mdp\.u\b` matches at the very start of a span
`mdp.` ++ v followed by a `BoundaryHead` context, when `v` is an
identifier different from `u`. -/
theorem matchAt_patv_start
    {u v suf : List Char}
    (hu_words : ∀ c ∈ u, isWordChar c = true)
    (hv_words : ∀ c ∈ v, isWordChar c = true)
    (huv : u ≠ v)
    (hsuf : BoundaryHead suf) :
    matchAt u (pat v ++ suf) = false := by
  rcases hma : matchAt u (pat v ++ suf) with _ | _
  · rfl
  exfalso
  obtain ⟨k, hk, hbk⟩ := matchAt_iff.mp hma
  have hvk : v ++ suf = u ++ k := by
    apply @List.append_cancel_left _ mdpDot _ _
    simpa [pat, List.append_assoc] using hk
  rcases List.append_eq_append_iff.mp hvk with ⟨j, hj1, hj2⟩ | ⟨j, hj1, hj2⟩
  · -- u = v ++ j, suf = j ++ k
    cases j with
    | nil => exact huv (by simpa using hj1)
    | cons j0 j' =>
      have hj0 : isWordChar j0 = true := by
        apply hu_words; rw [hj1]; simp
      rcases hsuf with hnil | ⟨c0, t0, hc0, hw0⟩
      · rw [hnil] at hj2; cases hj2
      · rw [hc0] at hj2
        have : c0 = j0 := by
          have := hj2
          simp at this
          exact this.1
        rw [this, hj0] at hw0
        cases hw0
  · -- v = u ++ j, k = j ++ suf
    cases j with
    | nil => exact huv (by simpa using hj1.symm)
    | cons j0 j' =>
      have hj0 : isWordChar j0 = true := by
        apply hv_words; rw [hj1]; simp
      rw [hj2, bnd.eq_def] at hbk
      simp [hj0] at hbk

/-- No table pattern `mdp\.u\b` can match at any position inside the span
`mdp.` ++ v when `v` is an identifier different from `u` and the span is
followed by a `BoundaryHead` context, under a side condition ruling out
the one straddling configuration: either `v` does not end in `mdp`, or
the context does not start with a dot. -/
theorem no_prefix_match_patv
    {u v suf : List Char}
    (hu_words : ∀ c ∈ u, isWordChar c = true)
    (hv_words : ∀ c ∈ v, isWordChar c = true)
    (huv : u ≠ v)
    (hsuf : BoundaryHead suf)
    (hside : ¬ (['m', 'd', 'p'] <:+ v) ∨ ∀ t0 : List Char, suf ≠ '.' :: t0) :
    ∀ a m, pat v = a ++ m → m ≠ [] → matchAt u (m ++ suf) = false := by
  intro a m hsplit hm_ne
  have hsufm : m <:+ pat v := ⟨a, hsplit.symm⟩
  rcases hma : matchAt u (m ++ suf) with _ | _
  · rfl
  exfalso
  obtain ⟨k, hk, hbk⟩ := matchAt_iff.mp hma
  rcases suffix_pat_cases hsufm with hc | hc | hc | hc | hc
  · -- m = pat v : a u-match at the very start of the span
    rw [hc] at hma
    rw [matchAt_patv_start hu_words hv_words huv hsuf] at hma
    exact Bool.noConfusion hma
  · rw [hc] at hk; simp [pat, mdpDot] at hk
  · rw [hc] at hk; simp [pat, mdpDot] at hk
  · rw [hc] at hk; simp [pat, mdpDot] at hk
  · -- m is a suffix of v (all word characters)
    have hmw : ∀ x ∈ m, isWordChar x = true := fun x hx => hv_words x (hc.subset hx)
    match m, hm_ne with
    | m0 :: m1, _ =>
      rcases m1 with _ | ⟨ma, m2⟩
      · -- |m| = 1 : suf would start with the word character 'd'
        have := hk
        simp [pat, mdpDot] at this
        obtain ⟨-, hsufd⟩ := this
        rcases hsuf with hnil | ⟨c0, t0, hc0, hw0⟩
        · rw [hnil] at hsufd; cases hsufd
        · rw [hc0] at hsufd
          have hcd : c0 = 'd' := by
            have := hsufd
            simp at this
            exact this.1
          rw [hcd] at hw0
          simp [isWordChar] at hw0
      · rcases m2 with _ | ⟨mb, m3⟩
        · -- |m| = 2 : suf would start with 'p'
          have := hk
          simp [pat, mdpDot] at this
          obtain ⟨-, -, hsufp⟩ := this
          rcases hsuf with hnil | ⟨c0, t0, hc0, hw0⟩
          · rw [hnil] at hsufp; cases hsufp
          · rw [hc0] at hsufp
            have hcp : c0 = 'p' := by
              have := hsufp
              simp at this
              exact this.1
            rw [hcp] at hw0
            simp [isWordChar] at hw0
        · rcases m3 with _ | ⟨mc, m4⟩
          · -- |m| = 3 : m is the trailing mdp of v and suf starts with
            -- the dot, the configuration excluded by the side condition
            have := hk
            simp [pat, mdpDot] at this
            obtain ⟨e0, e1, e2, hsufdot⟩ := this
            rcases hside with hnm | hnd
            · apply hnm
              rw [show ('m' : Char) = m0 from e0.symm,
                show ('d' : Char) = ma from e1.symm,
                show ('p' : Char) = mb from e2.symm]
              exact hc
            · exact hnd _ (by first | exact hsufdot | exact hsufdot.symm)
          · -- |m| ≥ 4 : the dot of the pattern would be a word character of v
            have := hk
            simp [pat, mdpDot] at this
            have hdc : mc = '.' := this.2.2.2.1
            have := hmw mc (by simp)
            rw [hdc] at this
            simp [isWordChar] at this

/-- No table pattern `mdp\.u\b` can match at any position inside a block
`mdp.` ++ v₁ that is immediately followed by the four characters `mdp.`
(the straddle-case decomposition: `v = v₁ ++ mdp` followed by a dot). -/
theorem no_prefix_match_patv_mdp
    {u v₁ rest : List Char}
    (hu_words : ∀ c ∈ u, isWordChar c = true)
    (hv_words : ∀ c ∈ v₁, isWordChar c = true)
    (huv : u ≠ v₁ ++ ['m', 'd', 'p']) :
    ∀ a m, pat v₁ = a ++ m → m ≠ [] →
      matchAt u (m ++ (mdpDot ++ rest)) = false := by
  intro a m hsplit hm_ne
  have hsufm : m <:+ pat v₁ := ⟨a, hsplit.symm⟩
  rcases hma : matchAt u (m ++ (mdpDot ++ rest)) with _ | _
  · rfl
  exfalso
  obtain ⟨k, hk, hbk⟩ := matchAt_iff.mp hma
  rcases suffix_pat_cases hsufm with hc | hc | hc | hc | hc
  · -- m = pat v₁ : a u-match at the start of the block
    rw [hc] at hk
    have hvk : v₁ ++ (mdpDot ++ rest) = u ++ k := by
      apply @List.append_cancel_left _ mdpDot _ _
      simpa [pat, List.append_assoc] using hk
    rcases List.append_eq_append_iff.mp hvk with ⟨j, hj1, hj2⟩ | ⟨j, hj1, hj2⟩
    · -- u = v₁ ++ j and mdpDot ++ rest = j ++ k : j is a word-character
      -- prefix of mdp.rest, so j is one of [], m, md, mdp
      have hjw : ∀ c ∈ j, isWordChar c = true := by
        intro c hcj
        apply hu_words
        rw [hj1]
        exact List.mem_append_right _ hcj
      have hjp : j <+: pat rest := ⟨k, hj2.symm⟩
      rcases prefix_pat_cases hjp with hj | hj | hj | hj | ⟨mu, hj, -⟩
      · -- j = [] : the boundary lands on the 'm' of mdpDot
        subst hj
        have h2 := hj2
        simp [mdpDot] at h2
        have hkk : k = 'm' :: 'd' :: 'p' :: '.' :: rest := by
          first | exact h2 | exact h2.symm
        rw [hkk, bnd.eq_def] at hbk
        simp [isWordChar] at hbk
      · -- j = [m] : the boundary lands on 'd'
        subst hj
        have h2 := hj2
        simp [mdpDot] at h2
        have hkk : k = 'd' :: 'p' :: '.' :: rest := by
          first | exact h2 | exact h2.symm
        rw [hkk, bnd.eq_def] at hbk
        simp [isWordChar] at hbk
      · -- j = [m, d] : the boundary lands on 'p'
        subst hj
        have h2 := hj2
        simp [mdpDot] at h2
        have hkk : k = 'p' :: '.' :: rest := by
          first | exact h2 | exact h2.symm
        rw [hkk, bnd.eq_def] at hbk
        simp [isWordChar] at hbk
      · -- j = [m, d, p] : u would be v₁ ++ mdp
        subst hj
        exact huv hj1
      · -- longer j contains the dot, impossible for word characters
        have : isWordChar '.' = true := by
          apply hjw
          rw [hj, mdpDot]
          simp
        simp [isWordChar] at this
    · -- v₁ = u ++ j
      cases j with
      | nil =>
        have h2 := hj2
        simp [mdpDot] at h2
        have hkk : k = 'm' :: 'd' :: 'p' :: '.' :: rest := by
          first | exact h2 | exact h2.symm
        rw [hkk, bnd.eq_def] at hbk
        simp [isWordChar] at hbk
      | cons j0 j' =>
        have hj0 : isWordChar j0 = true := by
          apply hv_words; rw [hj1]; simp
        rw [hj2, bnd.eq_def] at hbk
        simp [hj0] at hbk
  · rw [hc] at hk; simp [pat, mdpDot] at hk
  · rw [hc] at hk; simp [pat, mdpDot] at hk
  · rw [hc] at hk; simp [pat, mdpDot] at hk
  · -- m is a word-character suffix of v₁ followed by the 'm' of mdpDot:
    -- the pattern head mdp. cannot line up
    have hmw : ∀ x ∈ m, isWordChar x = true := fun x hx => hv_words x (hc.subset hx)
    match m, hm_ne with
    | m0 :: m1, _ =>
      rcases m1 with _ | ⟨ma, m2⟩
      · have := hk
        simp [pat, mdpDot] at this
      · rcases m2 with _ | ⟨mb, m3⟩
        · have := hk
          simp [pat, mdpDot] at this
        · rcases m3 with _ | ⟨mc, m4⟩
          · have := hk
            simp [pat, mdpDot] at this
          · have := hk
            simp [pat, mdpDot] at this
            have hdc : mc = '.' := this.2.2.2.1
            have := hmw mc (by simp)
            rw [hdc] at this
            simp [isWordChar] at this

/-- One substitution keeps a `BoundaryHead` context a `BoundaryHead`. -/
theorem subWB_boundaryHead {w r suf : List Char} (h : BoundaryHead suf) :
    BoundaryHead (subWB w r suf) := by
  rcases h with hnil | ⟨c0, t0, hc0, hw0⟩
  · subst hnil; rw [subWB_nil]; exact Or.inl rfl
  · subst hc0
    rw [subWB_neg r (matchAt_false_of_nonword_head hw0)]
    exact Or.inr ⟨c0, _, rfl, hw0⟩

/-- A successful match in `pre ++ (mdp.v-span ++ suf)` never overlaps the
span: the whole pattern (match text) is a prefix of `pre`.  Uses the table
facts that `w` is a word and does not end in `mdp`, and that `v` is an
identifier different from `w`. -/
theorem matchAt_span_prefix {w v suf pre : List Char}
    (hw_words : ∀ c ∈ w, isWordChar c = true)
    (hw_mdp : ¬ (['m', 'd', 'p'] <:+ w))
    (hv_words : ∀ c ∈ v, isWordChar c = true)
    (hwv : w ≠ v)
    (hsuf : BoundaryHead suf)
    (h : matchAt w (pre ++ (pat v ++ suf)) = true) :
    pat w <+: pre := by
  obtain ⟨k, hk, hbk⟩ := matchAt_iff.mp h
  rcases List.append_eq_append_iff.mp hk with ⟨m, hm1, hm2⟩ | ⟨m, hm1, hm2⟩
  · -- pat w = pre ++ m and pat v ++ suf = m ++ k
    cases m with
    | nil => exact ⟨[], by simp [hm1]⟩
    | cons m0 m1 =>
      exfalso
      have hmsuf : (m0 :: m1) <:+ pat w := ⟨pre, hm1.symm⟩
      rcases suffix_pat_cases hmsuf with hc | hc | hc | hc | hc
      · -- m = pat w : a w-match at the very start of the span
        have hpre : pre = [] := by
          rw [hc] at hm1
          have h0 : pre ++ pat w = [] ++ pat w := by
            rw [List.nil_append]; exact hm1.symm
          exact List.append_cancel_right h0
        have hmatch0 : matchAt w ((m0 :: m1) ++ k) = true := by
          apply matchAt_iff.mpr
          exact ⟨k, by rw [hc], hbk⟩
        rw [← hm2] at hmatch0
        rw [matchAt_patv_start hw_words hv_words hwv hsuf] at hmatch0
        cases hmatch0
      · -- m would start with 'd' yet the span starts with 'm'
        rw [hc] at hm2; simp [pat, mdpDot] at hm2
      · rw [hc] at hm2; simp [pat, mdpDot] at hm2
      · rw [hc] at hm2; simp [pat, mdpDot] at hm2
      · -- m <:+ w : word characters matching the head of the span
        have hmw : ∀ x ∈ m0 :: m1, isWordChar x = true :=
          fun x hx => hw_words x (hc.subset hx)
        rcases m1 with _ | ⟨ma, m2⟩
        · -- |m| = 1 : boundary lands on 'd'
          have h2 := hm2
          simp [pat, mdpDot] at h2
          have hkk : k = 'd' :: 'p' :: '.' :: (v ++ suf) := by
            first
            | exact h2.2
            | exact h2.2.symm
          rw [hkk, bnd.eq_def] at hbk
          simp [isWordChar] at hbk
        · rcases m2 with _ | ⟨mb, m3⟩
          · -- |m| = 2 : boundary lands on 'p'
            have h2 := hm2
            simp [pat, mdpDot] at h2
            have hkk : k = 'p' :: '.' :: (v ++ suf) := by
              first
              | exact h2.2.2
              | exact h2.2.2.symm
            rw [hkk, bnd.eq_def] at hbk
            simp [isWordChar] at hbk
          · rcases m3 with _ | ⟨mc, m4⟩
            · -- |m| = 3 : w would end in mdp
              have h2 := hm2
              simp [pat, mdpDot] at h2
              have e0 : m0 = 'm' := by first | exact h2.1 | exact h2.1.symm
              have e1 : ma = 'd' := by first | exact h2.2.1 | exact h2.2.1.symm
              have e2 : mb = 'p' := by first | exact h2.2.2.1 | exact h2.2.2.1.symm
              rw [e0, e1, e2] at hc
              exact hw_mdp hc
            · -- |m| ≥ 4 : the span's dot would be a word character of w
              have h2 := hm2
              simp [pat, mdpDot] at h2
              have hdc : mc = '.' := by
                first
                | exact h2.2.2.2.1
                | exact h2.2.2.2.1.symm
              have hw := hmw mc (by simp)
              rw [hdc] at hw
              simp [isWordChar] at hw
  · -- pre = pat w ++ m
    exact ⟨m, hm1.symm⟩

/-- One substitution preserves an `mdp.v` span standing at the head of the
text: the output still starts with the span verbatim, followed by a
`BoundaryHead` context.  When the context starts with an attribute dot and
`v` ends in `mdp`, a match may straddle the end of the span (consuming its
trailing `mdp`, the dot and a wrong-name from the context), but the
replacement text re-supplies `mdp.` — so the span survives verbatim even
then. -/
theorem subWB_span_base {w r v suf : List Char}
    (hw_words : ∀ c ∈ w, isWordChar c = true)
    (hv_words : ∀ c ∈ v, isWordChar c = true)
    (hwv : w ≠ v)
    (hsuf : BoundaryHead suf) :
    ∃ suf₂, subWB w r (pat v ++ suf) = pat v ++ suf₂ ∧ BoundaryHead suf₂ := by
  by_cases hside : ¬ (['m', 'd', 'p'] <:+ v) ∨ ∀ t0 : List Char, suf ≠ '.' :: t0
  · -- no straddle is possible: no match starts inside the span at all
    refine ⟨subWB w r suf, ?_, subWB_boundaryHead hsuf⟩
    exact subWB_append_split (pat v) suf
      (no_prefix_match_patv hw_words hv_words hwv hsuf hside)
  · -- v = v₁ ++ mdp and suf = '.' :: t0 : the straddle configuration
    push_neg at hside
    obtain ⟨⟨v₁, hv₁⟩, t0, rfl⟩ := hside
    have hv₁_words : ∀ c ∈ v₁, isWordChar c = true := by
      intro c hcv
      apply hv_words
      rw [← hv₁]
      exact List.mem_append_left _ hcv
    have hwv₁ : w ≠ v₁ ++ ['m', 'd', 'p'] := by rw [hv₁]; exact hwv
    have hre : pat v ++ '.' :: t0 = pat v₁ ++ (mdpDot ++ t0) := by
      rw [← hv₁]; simp [pat, mdpDot]
    rw [hre, subWB_append_split (pat v₁) (mdpDot ++ t0)
      (no_prefix_match_patv_mdp hw_words hv₁_words hwv₁)]
    obtain ⟨X, hX⟩ := @subWB_mdpDot w r t0
    refine ⟨'.' :: X, ?_, Or.inr ⟨'.', X, rfl, by decide⟩⟩
    rw [hX, ← hv₁]
    simp [pat, mdpDot]

/-- One substitution preserves an `mdp.v` span anywhere in the text: the
output still contains the span verbatim, followed by a `BoundaryHead`
context. -/
theorem subWB_span {w r v suf : List Char}
    (hw_words : ∀ c ∈ w, isWordChar c = true)
    (hw_mdp : ¬ (['m', 'd', 'p'] <:+ w))
    (hv_words : ∀ c ∈ v, isWordChar c = true)
    (hwv : w ≠ v)
    (hsuf : BoundaryHead suf) :
    ∀ (n : Nat) (pre : List Char), pre.length ≤ n →
      ∃ pre₂ suf₂, subWB w r (pre ++ (pat v ++ suf)) =
        pre₂ ++ (pat v ++ suf₂) ∧ BoundaryHead suf₂ := by
  intro n
  induction n with
  | zero =>
    intro pre hlen
    have : pre = [] := List.length_eq_zero.mp (Nat.le_zero.mp hlen)
    subst this
    obtain ⟨suf₂, hs, hb⟩ := @subWB_span_base w r v suf hw_words hv_words hwv hsuf
    exact ⟨[], suf₂, by simpa using hs, hb⟩
  | succ n ih =>
    intro pre hlen
    cases pre with
    | nil =>
      obtain ⟨suf₂, hs, hb⟩ := @subWB_span_base w r v suf hw_words hv_words hwv hsuf
      exact ⟨[], suf₂, by simpa using hs, hb⟩
    | cons c t =>
      rcases hm : matchAt w ((c :: t) ++ (pat v ++ suf)) with _ | _
      · -- copy one character
        rw [List.cons_append] at hm
        obtain ⟨pre₂, suf₂, hp, hb⟩ := ih t (by simp at hlen; omega)
        refine ⟨c :: pre₂, suf₂, ?_, hb⟩
        rw [List.cons_append, subWB_neg r hm, hp]
        simp
      · -- a match: it is contained in pre
        have hpref := matchAt_span_prefix hw_words hw_mdp hv_words hwv hsuf hm
        obtain ⟨pre₂, hpre₂⟩ := hpref
        have hdrop : ((c :: t) ++ (pat v ++ suf)).drop (pat w).length =
            pre₂ ++ (pat v ++ suf) := by
          rw [← hpre₂, List.append_assoc, List.drop_left]
        have hlen₂ : pre₂.length ≤ n := by
          have := congrArg List.length hpre₂
          simp [pat, mdpDot] at this
          simp at hlen
          omega
        obtain ⟨pre₃, suf₂, hp, hb⟩ := ih pre₂ hlen₂
        refine ⟨pat r ++ pre₃, suf₂, ?_, hb⟩
        rw [subWB_pos r hm, hdrop, hp]
        simp

/-- The correction fold preserves an `mdp.v` span anywhere in the text. -/
theorem fold_span_preserved
    {v : List Char} (hv_words : ∀ c ∈ v, isWordChar c = true) :
    ∀ (entries : List (String × Option String)) (pre suf : List Char) (cs : List String),
      (∀ e ∈ entries, ∀ c ∈ e.1.data, isWordChar c = true) →
      (∀ e ∈ entries, ¬ (['m', 'd', 'p'] <:+ e.1.data)) →
      (∀ e ∈ entries, v ≠ e.1.data) →
      BoundaryHead suf →
      ∃ pre₂ suf₂ cs₂,
        entries.foldl applyCorrection (pre ++ (pat v ++ suf), cs) = (pre₂ ++ (pat v ++ suf₂), cs₂) ∧
        BoundaryHead suf₂ := by
  intro entries
  induction entries with
  | nil => intro pre suf cs _ _ _ hsuf; exact ⟨pre, suf, cs, rfl, hsuf⟩
  | cons e rest ih =>
    intro pre suf cs hwords hmdp hne hsuf
    rw [List.foldl_cons]
    rcases e with ⟨w, _ | r⟩
    · exact ih pre suf cs (fun e' he' => hwords e' (List.mem_cons_of_mem _ he'))
        (fun e' he' => hmdp e' (List.mem_cons_of_mem _ he'))
        (fun e' he' => hne e' (List.mem_cons_of_mem _ he')) hsuf
    · have hw_words := hwords (w, some r) (List.mem_cons_self _ _)
      have hw_mdp := hmdp (w, some r) (List.mem_cons_self _ _)
      have hwv : w.data ≠ v :=
        fun hh => hne (w, some r) (List.mem_cons_self _ _) hh.symm
      by_cases hsm : hasMatch w.data (pre ++ (pat v ++ suf))
      · obtain ⟨pre₂, suf₂, hp, hb₂⟩ := @subWB_span w.data r.data v suf hw_words hw_mdp
          hv_words hwv hsuf pre.length pre le_rfl
        have hstep : applyCorrection (pre ++ (pat v ++ suf), cs) (w, some r) =
            (pre₂ ++ (pat v ++ suf₂),
             cs ++ [s!"mdp.{w} -> mdp.{r}"]) := by
          simp only [applyCorrection, hsm, if_true]
          rw [hp]
        rw [hstep]
        exact ih pre₂ _ _ (fun e' he' => hwords e' (List.mem_cons_of_mem _ he'))
          (fun e' he' => hmdp e' (List.mem_cons_of_mem _ he'))
          (fun e' he' => hne e' (List.mem_cons_of_mem _ he'))
          hb₂
      · have hstep : applyCorrection (pre ++ (pat v ++ suf), cs) (w, some r) =
            (pre ++ (pat v ++ suf), cs) := by
          simp only [Bool.not_eq_true] at hsm
          simp [applyCorrection, hsm]
        rw [hstep]
        exact ih pre suf cs (fun e' he' => hwords e' (List.mem_cons_of_mem _ he'))
          (fun e' he' => hmdp e' (List.mem_cons_of_mem _ he'))
          (fun e' he' => hne e' (List.mem_cons_of_mem _ he')) hsuf

/-- **C7.**  Word-boundary safety: in any input artifact
`pre ++ "mdp." ++ v ++ suf` containing an occurrence of the alias-dot
prefix followed by a valid name `v` — an identifier that strictly extends
some table entry's wrong-name with further identifier characters and,
being valid, is not itself a flagged wrong-name — with the occurrence
followed by a non-identifier boundary (`suf` empty or starting with any
non-word character, an attribute dot included), the occurrence is never
altered by `auto_correct_code`: the output still contains `"mdp." ++ v`
verbatim, with only the surrounding context possibly substituted. -/
theorem auto_correct_word_boundary_safe
    (pre v suf : List Char)
    (hv_words : ∀ c ∈ v, isWordChar c = true)
    (hv_ne : v ≠ [])
    (hv_valid : ∀ e ∈ COMMON_CORRECTIONS, v ≠ e.1.data)
    (hv_ext : ∃ e ∈ COMMON_CORRECTIONS, e.1.data <+: v)
    (hsuf : BoundaryHead suf) :
    ∃ pre' suf',
      (auto_correct_code (String.mk (pre ++ (pat v ++ suf)))).1 =
        String.mk (pre' ++ (pat v ++ suf')) := by
  obtain ⟨pre₂, suf₂, cs₂, hfold, -⟩ :=
    fold_span_preserved hv_words COMMON_CORRECTIONS pre suf []
      table_wrong_words table_wrong_not_mdp hv_valid hsuf
  refine ⟨pre₂, suf₂, ?_⟩
  unfold auto_correct_code
  rw [show (String.mk (pre ++ (pat v ++ suf))).data = pre ++ (pat v ++ suf) from rfl, hfold]

/-- Witness for C7 at the specification's own example: the valid name
`track_lin_vel_xy_exp`, strictly extending the flagged wrong-name
`track_lin_vel_xy`, inside a small artifact, followed by an attribute-dot
boundary (`mdp.track_lin_vel_xy_exp.min`). -/
theorem auto_correct_word_boundary_safe_witness :
    (∀ c ∈ "track_lin_vel_xy_exp".data, isWordChar c = true) ∧
    "track_lin_vel_xy_exp".data ≠ [] ∧
    (∀ e ∈ COMMON_CORRECTIONS, "track_lin_vel_xy_exp".data ≠ e.1.data) ∧
    (∃ e ∈ COMMON_CORRECTIONS, e.1.data <+: "track_lin_vel_xy_exp".data) ∧
    ∃ pre' suf',
      (auto_correct_code (String.mk ("x = ".data ++
          (pat "track_lin_vel_xy_exp".data ++ ".min".data)))).1 =
        String.mk (pre' ++ (pat "track_lin_vel_xy_exp".data ++ suf')) :=
  ⟨by decide, by decide, by decide,
   ⟨("track_lin_vel_xy", some "track_lin_vel_xy_exp"), by decide, by decide⟩,
   auto_correct_word_boundary_safe "x = ".data "track_lin_vel_xy_exp".data ".min".data
     (by decide) (by decide) (by decide)
     ⟨("track_lin_vel_xy", some "track_lin_vel_xy_exp"), by decide, by decide⟩
     (Or.inr ⟨'.', ['m', 'i', 'n'], rfl, by decide⟩)⟩

/-- **C1, counterexample.**  The no-op claim for unknown categories is
false: step 1 of `post_process_env_cfg` (the task-specific mdp-import
canonicalization) and step 4 (the literal-nucleus diagnostic) do not
consult the category at all.  On the unknown category `unknown_category`
(not a key of `CATEGORY_ROBOT_CONFIG`) and an input consisting of a
task-specific mdp import, the function rewrites the text and reports a
fix. -/
theorem post_process_unknown_category_not_noop_cex :
    List.lookup "unknown_category" CATEGORY_ROBOT_CONFIG = none ∧
    post_process_env_cfg "import isaaclab_tasks.manager_based.x.mdp as mdp"
        "unknown_category" =
      ("import isaaclab.envs.mdp as mdp",
       ["Replaced task-specific mdp import with isaaclab.envs.mdp"]) ∧
    post_process_env_cfg "import isaaclab_tasks.manager_based.x.mdp as mdp"
        "unknown_category" ≠
      ("import isaaclab_tasks.manager_based.x.mdp as mdp", []) := by
  refine ⟨by decide, by decide, ?_⟩
  decide

/-- **C1, amended.**  For every category that is not a known task category
(no entry in `CATEGORY_ROBOT_CONFIG`), the robot-specific steps 2 and 3
are skipped; if, additionally, the input matches none of the three
task-specific mdp-import patterns and contains no literal
`"ISAACLAB_NUCLEUS_DIR/...` string, then `post_process_env_cfg` is a no-op
passthrough returning the input unchanged with an empty fix list. -/
theorem post_process_unknown_category_passthrough
    (code : String) (category : String)
    (hcat : List.lookup category CATEGORY_ROBOT_CONFIG = none)
    (hA : regexSearch matchTaskMdpA code.data = false)
    (hB : regexSearch matchTaskMdpB code.data = false)
    (hC : regexSearch matchTaskMdpC code.data = false)
    (hN : regexSearch matchNucleusLit code.data = false) :
    post_process_env_cfg code category = (code, []) := by
  unfold post_process_env_cfg
  simp only [hA, hB, hC, hN, hcat, Bool.false_eq_true, if_false, List.append_nil,
    List.nil_append]

/-- Witness for C1's amended theorem at the repository's own test input
(`test_unknown_category_is_noop`). -/
theorem post_process_unknown_category_passthrough_witness :
    post_process_env_cfg "import isaaclab.envs.mdp as mdp\nclass Foo:\n    pass\n"
        "unknown_category" =
      ("import isaaclab.envs.mdp as mdp\nclass Foo:\n    pass\n", []) :=
  post_process_unknown_category_passthrough
    "import isaaclab.envs.mdp as mdp\nclass Foo:\n    pass\n" "unknown_category"
    (by decide) (by decide) (by decide) (by decide) (by decide)

end RoboSpec
